import Mathlib

/-!
Verification of the cpprestsdk JSON core (`Release/include/cpprest/json.h`)
against its natural-language specification.

The C++ classes `web::json::number`, `web::json::array`, `web::json::object`
and the `web::json::value` tree are shallowly embedded as Lean data types.
Machine integers are modelled as `Int`/`Nat` with the constructor-enforced
ranges stated explicitly where they matter; `std::vector` storage becomes
`List`; throwing members become `Option`-returning functions (`none` = the
member throws `json_exception`).

IEEE doubles are modelled exactly: every finite double is a dyadic rational
and therefore has a finite decimal expansion, so the stored `double` payload
is represented as a scaled decimal `m * 10^(-k)` (`m : Int`, `k : Nat`).
Double `operator==` is value equality of the represented rationals, which is
exact IEEE equality on this range (NaN payloads, which no constructor in the
claims produces, are outside the model).
-/

namespace CppRest

/-- The `type` discriminant enum of `web::json::number`
(json.h, `enum type { signed_type=0, unsigned_type, double_type }`). -/
inductive NumberTag
| signed_type
| unsigned_type
| double_type
deriving DecidableEq, Repr

/-- The `web::json::number` packed variant: a tag plus the active member of the
`union { int64_t m_intval; uint64_t m_uintval; double m_value; }`.
The constructors of this inductive are raw (tag, payload) states; the C++
constructors are the `from_*` functions below. The double payload is the
exact decimal `m * 10^(-k)` (see module comment). -/
inductive number
| signed_int (v : Int)
| unsigned_int (v : Nat)
| double_val (m : Int) (k : Nat)
deriving DecidableEq, Repr

namespace number

/-- The stored `m_type` discriminant of a number. -/
def m_type : number → NumberTag
  | signed_int _ => NumberTag.signed_type
  | unsigned_int _ => NumberTag.unsigned_type
  | double_val _ _ => NumberTag.double_type

/-- `number(double value) : m_value(value), m_type(double_type)`. -/
def from_double (m : Int) (k : Nat) : number := double_val m k

/-- `number(int32_t value) : m_intval(value), m_type(value < 0 ? signed_type : unsigned_type)`.
A non-negative `int64_t` bit pattern reinterpreted through `m_uintval` is the
same mathematical value, hence `v.toNat`. -/
def from_int32 (v : Int) : number :=
  if v < 0 then signed_int v else unsigned_int v.toNat

/-- `number(uint32_t value) : m_intval(value), m_type(unsigned_type)`. -/
def from_uint32 (v : Nat) : number := unsigned_int v

/-- `number(int64_t value) : m_intval(value), m_type(value < 0 ? signed_type : unsigned_type)`. -/
def from_int64 (v : Int) : number :=
  if v < 0 then signed_int v else unsigned_int v.toNat

/-- `number(uint64_t value) : m_uintval(value), m_type(unsigned_type)`. -/
def from_uint64 (v : Nat) : number := unsigned_int v

/-- `number::is_uint64`: `signed_type → m_intval >= 0; unsigned_type → true; double_type → false`. -/
def is_uint64 : number → Bool
  | signed_int v => decide (0 ≤ v)
  | unsigned_int _ => true
  | double_val _ _ => false

/-- `number::is_integral`: `m_type != double_type`. -/
def is_integral (n : number) : Bool := decide (n.m_type ≠ NumberTag.double_type)

/-- `number::operator==`: tags must match, then the active union member is
compared; for `double_type` this is IEEE value equality of the stored doubles,
i.e. equality of the represented rationals `m1*10^(-k1) = m2*10^(-k2)`,
stated cross-multiplied. -/
def equals : number → number → Bool
  | signed_int a, signed_int b => a == b
  | unsigned_int a, unsigned_int b => a == b
  | double_val m1 k1, double_val m2 k2 => m1 * (10 : Int) ^ k2 == m2 * (10 : Int) ^ k1
  | _, _ => false

/-- The mathematical value denoted by the stored payload. -/
def toRat : number → ℚ
  | signed_int v => (v : ℚ)
  | unsigned_int v => (v : ℚ)
  | double_val m k => (m : ℚ) / (10 : ℚ) ^ k

theorem equals_refl (a : number) : a.equals a = true := by
  cases a <;> simp [equals]

theorem toRat_double_eq_iff (m1 m2 : Int) (k1 k2 : Nat) :
    (double_val m1 k1).toRat = (double_val m2 k2).toRat ↔
      m1 * (10 : Int) ^ k2 = m2 * (10 : Int) ^ k1 := by
  have h1 : ((10 : ℚ) ^ k1) ≠ 0 := by positivity
  have h2 : ((10 : ℚ) ^ k2) ≠ 0 := by positivity
  rw [toRat, toRat, div_eq_div_iff h1 h2]
  constructor
  · intro h
    have := congrArg (fun q : ℚ => q) h
    exact_mod_cast h
  · intro h
    exact_mod_cast congrArg (fun z : Int => (z : ℚ)) h

end number

/-- C3 — Number construction fidelity: a negative integral input is stored with
tag `signed_type` and `is_uint64()` is `false`; a non-negative signed or any
unsigned integral input is stored with tag `unsigned_type` and `is_uint64()`
is `true`; a double input is stored with tag `double_type` and `is_integral()`
is `false`. -/
theorem c3_number_construction_fidelity :
    (∀ v : Int, v < 0 →
      (number.from_int64 v).m_type = NumberTag.signed_type ∧
      (number.from_int64 v).is_uint64 = false ∧
      (number.from_int32 v).m_type = NumberTag.signed_type ∧
      (number.from_int32 v).is_uint64 = false) ∧
    (∀ v : Int, 0 ≤ v →
      (number.from_int64 v).m_type = NumberTag.unsigned_type ∧
      (number.from_int64 v).is_uint64 = true) ∧
    (∀ v : Nat,
      (number.from_uint64 v).m_type = NumberTag.unsigned_type ∧
      (number.from_uint64 v).is_uint64 = true ∧
      (number.from_uint32 v).m_type = NumberTag.unsigned_type ∧
      (number.from_uint32 v).is_uint64 = true) ∧
    (∀ (m : Int) (k : Nat),
      (number.from_double m k).m_type = NumberTag.double_type ∧
      (number.from_double m k).is_integral = false) := by
  refine ⟨fun v hv => ?_, fun v hv => ?_, fun v => ?_, fun m k => ?_⟩
  · simp [number.from_int64, number.from_int32, hv, number.m_type, number.is_uint64]
  · have hlt : ¬ v < 0 := by omega
    simp [number.from_int64, hlt, number.m_type, number.is_uint64]
  · simp [number.from_uint64, number.from_uint32, number.m_type, number.is_uint64]
  · simp [number.from_double, number.m_type, number.is_integral]

/-- Witness for C3 at the concrete inputs of the claim: `-5`, `5`, `5.0`. -/
theorem c3_number_construction_fidelity_witness :
    (number.from_int64 (-5)).m_type = NumberTag.signed_type ∧
    (number.from_int64 (-5)).is_uint64 = false ∧
    (number.from_int64 5).m_type = NumberTag.unsigned_type ∧
    (number.from_int64 5).is_uint64 = true ∧
    (number.from_uint64 5).is_uint64 = true ∧
    (number.from_double 5 0).m_type = NumberTag.double_type ∧
    (number.from_double 5 0).is_integral = false := by
  have h1 := c3_number_construction_fidelity.1 (-5) (by decide)
  have h2 := c3_number_construction_fidelity.2.1 5 (by decide)
  have h3 := (c3_number_construction_fidelity.2.2.1 5).2.1
  have h4 := c3_number_construction_fidelity.2.2.2 5 0
  exact ⟨h1.1, h1.2.1, h2.1, h2.2, h3, h4.1, h4.2⟩

/-- C4 — Number equality is tag-sensitive: `operator==` holds exactly when the
two numbers carry the same tag and the same stored payload value (for doubles,
IEEE value equality of the stored doubles); any two numbers with different
tags are unequal, even when they denote the same mathematical value, as the
unsigned `5` versus the double `5.0` shows. -/
theorem c4_number_equality_tag_sensitive :
    (∀ a b : number, a.equals b = true ↔ (a.m_type = b.m_type ∧ a.toRat = b.toRat)) ∧
    (∀ a b : number, a.m_type ≠ b.m_type → a.equals b = false) ∧
    ((number.unsigned_int 5).equals (number.double_val 5 0) = false ∧
      (number.unsigned_int 5).toRat = (number.double_val 5 0).toRat) := by
  have key : ∀ a b : number, a.equals b = true ↔ (a.m_type = b.m_type ∧ a.toRat = b.toRat) := by
    intro a b
    cases a <;> cases b <;>
      simp [number.equals, number.m_type, number.toRat]
    case double_val.double_val m1 k1 m2 k2 =>
      rw [div_eq_div_iff (by positivity) (by positivity)]
      exact ⟨fun h => by exact_mod_cast h, fun h => by exact_mod_cast h⟩
  refine ⟨key, fun a b hne => ?_, ?_, ?_⟩
  · rcases h : a.equals b with _ | _
    · rfl
    · exact absurd ((key a b).mp h).1 hne
  · rfl
  · show (5 : ℚ) = (5 : ℚ) / (10 : ℚ) ^ (0 : Nat)
    norm_num

/-- Witness for C4: two concrete numbers with different tags but the same
mathematical value compare unequal. -/
theorem c4_number_equality_tag_sensitive_witness :
    (number.unsigned_int 7).equals (number.double_val 7 0) = false :=
  c4_number_equality_tag_sensitive.2.1 (number.unsigned_int 7) (number.double_val 7 0)
    (by decide)

/-- C9 — Integer-constructor normalization: a non-negative `int64_t` input
produces the `unsigned_type` tag and compares equal to the number built from
the corresponding `uint64_t`; every public numeric constructor that yields a
`signed_type` number got a negative input, so a `signed_type` number with a
non-negative payload is unreachable through the public constructors. -/
theorem c9_integer_ctor_normalization :
    (∀ n : Int, 0 ≤ n →
      number.from_int64 n = number.unsigned_int n.toNat ∧
      (number.from_int64 n).m_type = NumberTag.unsigned_type ∧
      (number.from_int64 n).equals (number.from_uint64 n.toNat) = true) ∧
    (∀ (v w : Int), number.from_int64 v = number.signed_int w → v < 0) ∧
    (∀ (v w : Int), number.from_int32 v = number.signed_int w → v < 0) ∧
    (∀ (v : Nat) (w : Int), number.from_uint64 v ≠ number.signed_int w) ∧
    (∀ (v : Nat) (w : Int), number.from_uint32 v ≠ number.signed_int w) ∧
    (∀ (m w : Int) (k : Nat), number.from_double m k ≠ number.signed_int w) := by
  refine ⟨fun n hn => ?_, fun v w h => ?_, fun v w h => ?_,
    fun v w => ?_, fun v w => ?_, fun m w k => ?_⟩
  · have hlt : ¬ n < 0 := by omega
    refine ⟨by simp [number.from_int64, hlt], by simp [number.from_int64, hlt, number.m_type], ?_⟩
    simp [number.from_int64, hlt, number.from_uint64, number.equals]
  · by_contra hge
    have hlt : ¬ v < 0 := by omega
    simp [number.from_int64, hlt] at h
  · by_contra hge
    have hlt : ¬ v < 0 := by omega
    simp [number.from_int32, hlt] at h
  · simp [number.from_uint64]
  · simp [number.from_uint32]
  · simp [number.from_double]

/-- Witness for C9 at `n = 7`. -/
theorem c9_integer_ctor_normalization_witness :
    number.from_int64 7 = number.unsigned_int 7 ∧
    (number.from_int64 7).equals (number.from_uint64 7) = true := by
  have h := c9_integer_ctor_normalization.1 7 (by decide)
  exact ⟨h.1, h.2.2⟩

/-- A UTF-8 object key / string payload, modelled as its list of code points.
Byte-wise lexicographic order on UTF-8 bytes coincides with code-point
lexicographic order, so `std::string::operator<` is modelled by the
lexicographic order on code points (`key_lt` below). -/
abbrev Utf8String := List Char

/-- The `web::json::value` tree (`value_type` ∈ Number, Boolean, String,
Object, Array, Null). A string carries the cached `m_has_escape_char` flag of
`details::_UTF8String`; an object carries its `m_keep_order` storage-mode flag
(`false` = Sorted, `true` = Ordered). -/
inductive JValue
| jnull
| jbool (b : Bool)
| jnum (n : number)
| jstr (s : Utf8String) (hasEsc : Bool)
| jarr (elems : List JValue)
| jobj (entries : List (Utf8String × JValue)) (keepOrder : Bool)
deriving Repr

/-- `SIZE_MAX` of the 64-bit `size_t` used by `array::size_type`. -/
def USIZE_MAX : Nat := 2 ^ 64 - 1

namespace array

/-- `array::operator[](index)`: `SafeInt<size_type> nMinSize(index); nMinSize += 1`
(which throws on `size_t` overflow, i.e. exactly when `index = SIZE_MAX`),
then `resize(index+1)` when the current size is smaller — new slots are
default-constructed `value()`s, i.e. Null — and the reference to
`m_elements[index]` is returned. The result is the (possibly grown) storage
together with the referenced element. -/
def op_index (elems : List JValue) (index : Nat) : Option (List JValue × JValue) :=
  if USIZE_MAX < index + 1 then none
  else
    let grown := if elems.length < index + 1
      then elems ++ List.replicate (index + 1 - elems.length) JValue.jnull
      else elems
    some (grown, grown.getD index JValue.jnull)

/-- Writing `v` through the reference returned by `array::operator[](index)`. -/
def index_write (elems : List JValue) (index : Nat) (v : JValue) : Option (List JValue) :=
  (op_index elems index).map (fun p => p.1.set index v)

/-- `array::at(index)`: `if (index >= m_elements.size()) throw json_exception("index out of bounds"); return m_elements[index];`. -/
def at_elem (elems : List JValue) (index : Nat) : Option JValue :=
  if h : index < elems.length then some elems[index] else none

/-- `array::erase(index)`: `if (index >= m_elements.size()) throw json_exception("index out of bounds"); m_elements.erase(m_elements.begin() + index);`. -/
def erase_idx (elems : List JValue) (index : Nat) : Option (List JValue) :=
  if elems.length ≤ index then none else some (elems.eraseIdx index)

end array

/-- C6 as literally stated is false at one input: `operator[]` is not
"never failing" — at `index = SIZE_MAX` the `SafeInt` computation of
`index + 1` overflows and throws before any growth happens. -/
theorem c6_array_auto_growth_counterexample :
    array.index_write [] USIZE_MAX JValue.jnull = none := by
  have h : USIZE_MAX < USIZE_MAX + 1 := Nat.lt_succ_self _
  simp [array.index_write, array.op_index, h]

/-- C6 (amended) — Array auto-growth: for every index below `SIZE_MAX`, the
indexed-write accessor never fails; when `index ≥ size` it grows the array to
`index + 1`, fills every newly created slot with Null, and the referenced slot
is slot `index`, so writing `w` there yields a storage whose first `size`
slots are the old elements, whose slots `size .. index-1` are Null, and whose
slot `index` holds `w`; when `index < size` the storage is unchanged and the
referenced slot is the existing element. In particular writing index 3 on an
empty array yields `[null, null, null, w]`. -/
theorem c6_array_auto_growth (elems : List JValue) (index : Nat) (w : JValue)
    (hbound : index < USIZE_MAX) :
    (index ≥ elems.length →
      ∃ r, array.index_write elems index w = some r ∧
        r.length = index + 1 ∧
        (∀ j, j < elems.length → r[j]? = elems[j]?) ∧
        (∀ j, elems.length ≤ j → j < index → r[j]? = some JValue.jnull) ∧
        r[index]? = some w) ∧
    (index < elems.length →
      array.op_index elems index = some (elems, elems.getD index JValue.jnull) ∧
      array.index_write elems index w = some (elems.set index w)) ∧
    array.index_write [] 3 w = some [JValue.jnull, JValue.jnull, JValue.jnull, w] := by
  have hno : ¬ USIZE_MAX < index + 1 := by omega
  refine ⟨fun hge => ?_, fun hlt => ?_, ?_⟩
  · have hgrow : elems.length < index + 1 := by omega
    refine ⟨(elems ++ List.replicate (index + 1 - elems.length) JValue.jnull).set index w,
      ?_, ?_, ?_, ?_, ?_⟩
    · simp [array.index_write, array.op_index, hno, hgrow]
    · simp only [List.length_set, List.length_append, List.length_replicate]
      omega
    · intro j hj
      rw [List.getElem?_set_ne (by omega), List.getElem?_append_left hj]
    · intro j hj1 hj2
      rw [List.getElem?_set_ne (by omega), List.getElem?_append_right hj1]
      simp only [List.getElem?_replicate]
      rw [if_pos (by omega)]
    · exact List.getElem?_set_eq_of_lt w (by simp; omega)
  · have hnogrow : ¬ elems.length < index + 1 := by omega
    constructor
    · simp [array.op_index, hno, hnogrow]
    · simp [array.index_write, array.op_index, hno, hnogrow]
  · simp [array.index_write, array.op_index, USIZE_MAX, List.replicate]

/-- Witness for C6 at a concrete instance: writing index 3 on an empty array. -/
theorem c6_array_auto_growth_witness :
    array.index_write [] 3 (JValue.jbool true) =
      some [JValue.jnull, JValue.jnull, JValue.jnull, JValue.jbool true] :=
  (c6_array_auto_growth [] 3 (JValue.jbool true) (by simp [USIZE_MAX])).2.2

/-- C7 — Array bounds errors: `at(index)` and `erase(index)` fail with
IndexOutOfBounds exactly when `index ≥ size`; in bounds, `at` returns the
element at `index` (the storage is untouched — the model is read-only), and
`erase` removes that element, shifting the following elements down by one. -/
theorem c7_array_bounds_errors (elems : List JValue) (index : Nat) :
    (array.at_elem elems index = none ↔ elems.length ≤ index) ∧
    (array.erase_idx elems index = none ↔ elems.length ≤ index) ∧
    (∀ h : index < elems.length, array.at_elem elems index = some elems[index]) ∧
    (index < elems.length →
      array.erase_idx elems index = some (elems.take index ++ elems.drop (index + 1))) := by
  refine ⟨?_, ?_, fun h => ?_, fun h => ?_⟩
  · unfold array.at_elem
    split
    · simp
      omega
    · simp
      omega
  · unfold array.erase_idx
    split
    · simp
      omega
    · simp
      omega
  · simp [array.at_elem, h]
  · have hle : ¬ elems.length ≤ index := by omega
    simp [array.erase_idx, hle, List.eraseIdx_eq_take_drop_succ]

/-- Witness for C7: `at(3)` on a 2-element array fails, `at(1)` and `erase(1)`
behave as described. -/
theorem c7_array_bounds_errors_witness :
    (array.at_elem [JValue.jnull, JValue.jbool true] 3 = none) ∧
    (array.at_elem [JValue.jnull, JValue.jbool true] 1 = some (JValue.jbool true)) ∧
    (array.erase_idx [JValue.jnull, JValue.jbool true] 1 = some [JValue.jnull]) := by
  refine ⟨?_, ?_, ?_⟩
  · exact (c7_array_bounds_errors [JValue.jnull, JValue.jbool true] 3).1.mpr (by simp)
  · have h := (c7_array_bounds_errors [JValue.jnull, JValue.jbool true] 1).2.2.1 (by simp)
    simpa using h
  · have h := (c7_array_bounds_errors [JValue.jnull, JValue.jbool true] 1).2.2.2 (by simp)
    simpa using h

instance : Inhabited JValue := ⟨JValue.jnull⟩

/-- `web::json::object`: the `std::vector<std::pair<utf8string, json::value>>`
storage plus the `m_keep_order` mode flag fixed at construction. -/
structure object where
  m_elements : List (Utf8String × JValue)
  m_keep_order : Bool

namespace object

/-- `object::compare_pairs(p1, p2) = p1.first < p2.first`
(`std::string::operator<`, byte-wise lexicographic, which on UTF-8 text
coincides with the code-point lexicographic order used here). -/
def compare_pairs (p1 p2 : Utf8String × JValue) : Bool := decide (p1.1 < p2.1)

/-- `object::compare_with_key(p1, key) = p1.first < key`. -/
def compare_with_key (p1 : Utf8String × JValue) (key : Utf8String) : Bool :=
  decide (p1.1 < key)

/-- One step of the sort used by the pre-populated constructor: insert `p`
in front of the first element it compares strictly below. -/
def insert_sorted (p : Utf8String × JValue) :
    List (Utf8String × JValue) → List (Utf8String × JValue)
  | [] => [p]
  | q :: qs => if compare_pairs q p then q :: insert_sorted p qs else p :: q :: qs

/-- `sort(m_elements.begin(), m_elements.end(), compare_pairs)` in the
pre-populated constructor. `std::sort` leaves the relative order of
equal-key pairs unspecified; the model picks the deterministic stable
outcome (this only matters when the input has duplicate keys). -/
def sort_pairs : List (Utf8String × JValue) → List (Utf8String × JValue)
  | [] => []
  | p :: ps => insert_sorted p (sort_pairs ps)

/-- `object::object(storage_type elements, bool keep_order)`: store the fields,
then `sort(...)` them when `keep_order` is false. -/
def from_fields (fields : List (Utf8String × JValue)) (keep_order : Bool) : object :=
  ⟨if keep_order then fields else sort_pairs fields, keep_order⟩

/-- `object::size()`. -/
def size (o : object) : Nat := o.m_elements.length

/-- `object::find_insert_location(key)`: in Ordered mode `std::find_if` for an
exact key match (index `length` = the end iterator); in Sorted mode
`std::lower_bound(..., compare_with_key)`, modelled by its contract — the
first position whose key is not less than `key`. -/
def find_insert_location (o : object) (key : Utf8String) : Nat :=
  if o.m_keep_order then
    o.m_elements.findIdx (fun p => p.1 == key)
  else
    o.m_elements.findIdx (fun p => ! compare_with_key p key)

/-- `object::find_by_key(key)`: both the const overload and the non-const one
(find_insert_location followed by the `iter != end && key != iter->first`
mismatch check) reduce to: the location when it holds an exact match,
otherwise the end iterator (`none`). -/
def find_by_key (o : object) (key : Utf8String) : Option Nat :=
  match o.m_elements[o.find_insert_location key]? with
  | some p => if p.1 == key then some (o.find_insert_location key) else none
  | none => none

/-- `object::operator[](key)` storage effect: if `find_insert_location` does
not point at an exact match, a `(key, value())` pair (value() = Null) is
inserted at that location; otherwise the storage is unchanged (the existing
entry is referenced). -/
def op_index (o : object) (key : Utf8String) : object :=
  match o.m_elements[o.find_insert_location key]? with
  | some p =>
    if p.1 == key then o
    else ⟨o.m_elements.insertIdx (o.find_insert_location key) (key, JValue.jnull),
      o.m_keep_order⟩
  | none => ⟨o.m_elements.insertIdx (o.find_insert_location key) (key, JValue.jnull),
      o.m_keep_order⟩

/-- `object::at(key)`: throws (`none`) when `find_by_key` hits the end,
otherwise returns `iter->second`. -/
def at_key (o : object) (key : Utf8String) : Option JValue :=
  (o.find_by_key key).bind (fun i => (o.m_elements[i]?).map Prod.snd)

/-- `object::erase(const utf8string&)`: throws (`none`, storage untouched)
when `find_by_key` hits the end, otherwise erases that entry. -/
def erase_key (o : object) (key : Utf8String) : Option object :=
  match o.find_by_key key with
  | some i => some ⟨o.m_elements.eraseIdx i, o.m_keep_order⟩
  | none => none

end object

/-- A mutation step on an object: a keyed indexed-write access
(`operator[]`, inserting a Null entry when the key is absent) or an
`erase(key)` (which leaves the object unchanged when it throws). -/
inductive ObjOp
| index_op (key : Utf8String)
| erase_op (key : Utf8String)

/-- Apply one mutation step. -/
def object.apply_op (o : object) : ObjOp → object
  | ObjOp.index_op k => o.op_index k
  | ObjOp.erase_op k => (o.erase_key k).getD o

/-- Apply a sequence of mutation steps. -/
def object.apply_ops (o : object) (ops : List ObjOp) : object :=
  ops.foldl object.apply_op o

/-- Storage keys are strictly ascending (pairwise, hence in iteration order). -/
def StrictlyAscending (l : List (Utf8String × JValue)) : Prop :=
  l.Pairwise (fun p q => p.1 < q.1)

/-- Storage keys are weakly ascending. -/
def WeaklyAscending (l : List (Utf8String × JValue)) : Prop :=
  l.Pairwise (fun p q => p.1 ≤ q.1)

namespace object

theorem insert_sorted_perm (p : Utf8String × JValue) (l : List (Utf8String × JValue)) :
    List.Perm (insert_sorted p l) (p :: l) := by
  induction l with
  | nil => exact List.Perm.refl _
  | cons q qs ih =>
    rw [insert_sorted]
    split
    · exact (List.Perm.cons q ih).trans (List.Perm.swap p q qs)
    · exact List.Perm.refl _

theorem sort_pairs_perm (l : List (Utf8String × JValue)) : List.Perm (sort_pairs l) l := by
  induction l with
  | nil => exact List.Perm.refl _
  | cons p ps ih =>
    rw [sort_pairs]
    exact (insert_sorted_perm p (sort_pairs ps)).trans (List.Perm.cons p ih)

theorem length_sort_pairs (l : List (Utf8String × JValue)) :
    (sort_pairs l).length = l.length :=
  (sort_pairs_perm l).length_eq

theorem insert_sorted_weak (p : Utf8String × JValue) (l : List (Utf8String × JValue))
    (hl : WeaklyAscending l) : WeaklyAscending (insert_sorted p l) := by
  induction l with
  | nil => exact List.pairwise_singleton _ _
  | cons q qs ih =>
    rw [insert_sorted]
    rw [WeaklyAscending, List.pairwise_cons] at hl
    split
    · rename_i hqp
      rw [object.compare_pairs, decide_eq_true_iff] at hqp
      refine List.Pairwise.cons ?_ (ih hl.2)
      intro r hr
      rcases List.mem_cons.mp ((insert_sorted_perm p qs).mem_iff.mp hr) with h | h
      · exact le_of_lt (h ▸ hqp)
      · exact hl.1 r h
    · rename_i hqp
      rw [object.compare_pairs, decide_eq_true_iff] at hqp
      refine List.Pairwise.cons ?_ (List.Pairwise.cons hl.1 hl.2)
      intro r hr
      rcases List.mem_cons.mp hr with h | h
      · exact h ▸ not_lt.mp hqp
      · exact le_trans (not_lt.mp hqp) (hl.1 r h)

theorem sort_pairs_weak (l : List (Utf8String × JValue)) :
    WeaklyAscending (sort_pairs l) := by
  induction l with
  | nil => exact List.Pairwise.nil
  | cons p ps ih => exact insert_sorted_weak p (sort_pairs ps) ih

theorem weak_nodup_strict (l : List (Utf8String × JValue))
    (hw : WeaklyAscending l) (hn : (l.map Prod.fst).Nodup) : StrictlyAscending l := by
  have hn2 : l.Pairwise (fun a b => a.1 ≠ b.1) := List.pairwise_map.mp hn
  exact (hw.and hn2).imp (fun h => lt_of_le_of_ne h.1 h.2)

theorem insertIdx_eq_take_cons_drop {α : Type} (l : List α) (i : Nat) (a : α)
    (h : i ≤ l.length) : l.insertIdx i a = l.take i ++ a :: l.drop i := by
  induction l generalizing i with
  | nil =>
    have h0 : i = 0 := Nat.le_zero.mp h
    subst h0
    simp
  | cons x xs ih =>
    cases i with
    | zero => simp
    | succ j =>
      simp only [List.insertIdx_succ_cons, List.take_succ_cons, List.drop_succ_cons,
        List.cons_append, List.cons.injEq, true_and]
      exact ih j (by simpa using h)

theorem pred_false_of_mem_take_findIdx {α : Type} (p : α → Bool) (l : List α) (x : α)
    (hx : x ∈ l.take (l.findIdx p)) : p x = false := by
  induction l with
  | nil => simp at hx
  | cons y ys ih =>
    rw [List.findIdx_cons] at hx
    by_cases hy : p y
    · simp [hy] at hx
    · simp only [hy, Bool.false_eq_true, cond_false, List.take_succ_cons] at hx
      rcases List.mem_cons.mp hx with h | h
      · exact h ▸ (Bool.not_eq_true _).mp hy
      · exact ih h

theorem pairwise_insertIdx_at {α : Type} {R : α → α → Prop} (l : List α) (i : Nat) (x : α)
    (hi : i ≤ l.length) (hl : l.Pairwise R)
    (hbefore : ∀ y ∈ l.take i, R y x) (hafter : ∀ y ∈ l.drop i, R x y) :
    (l.insertIdx i x).Pairwise R := by
  rw [insertIdx_eq_take_cons_drop l i x hi]
  have hl2 : (l.take i ++ l.drop i).Pairwise R := by rw [List.take_append_drop]; exact hl
  rw [List.pairwise_append] at hl2
  rw [List.pairwise_append]
  refine ⟨hl2.1, List.Pairwise.cons hafter hl2.2.1, ?_⟩
  intro a ha b hb
  rcases List.mem_cons.mp hb with h | h
  · exact h ▸ hbefore a ha
  · exact hl2.2.2 a ha b h

/-- Facts about the Sorted-mode lower-bound location: it is at most `size`,
every key before it is strictly below the searched key, and if it is a real
position then (on ascending storage) its key is at least the searched key. -/
theorem find_loc_facts (o : object) (k : Utf8String) (hmode : o.m_keep_order = false) :
    o.find_insert_location k ≤ o.m_elements.length ∧
    (∀ y ∈ o.m_elements.take (o.find_insert_location k), y.1 < k) ∧
    (∀ h : o.find_insert_location k < o.m_elements.length,
      ¬ (o.m_elements[o.find_insert_location k]).1 < k) := by
  rw [object.find_insert_location, hmode]
  simp only [Bool.false_eq_true, if_false]
  refine ⟨List.findIdx_le_length _, fun y hy => ?_, fun h => ?_⟩
  · have := pred_false_of_mem_take_findIdx _ _ y hy
    simp only [object.compare_with_key, Bool.not_eq_false', decide_eq_true_eq] at this
    exact this
  · have := @List.findIdx_getElem _ _ _ h
    simp only [object.compare_with_key, Bool.not_eq_true', decide_eq_false_iff_not] at this
    exact this

/-- `operator[]` in Sorted mode preserves weak key ascent and the mode flag. -/
theorem op_index_weak (o : object) (k : Utf8String) (hmode : o.m_keep_order = false)
    (hw : WeaklyAscending o.m_elements) :
    WeaklyAscending (o.op_index k).m_elements ∧ (o.op_index k).m_keep_order = false := by
  obtain ⟨hle, hbef, hat⟩ := find_loc_facts o k hmode
  have hins : WeaklyAscending
      (o.m_elements.insertIdx (o.find_insert_location k) (k, JValue.jnull)) := by
    refine pairwise_insertIdx_at _ _ _ hle hw (fun y hy => le_of_lt (hbef y hy)) ?_
    intro y hy
    rcases Nat.lt_or_ge (o.find_insert_location k) o.m_elements.length with hlt | hge
    · rw [List.drop_eq_getElem_cons hlt] at hy
      have hk : (k : Utf8String) ≤ (o.m_elements[o.find_insert_location k]).1 :=
        not_lt.mp (hat hlt)
      rcases List.mem_cons.mp hy with h | h
      · exact h ▸ hk
      · have hdrop : (o.m_elements.drop (o.find_insert_location k)).Pairwise
            (fun p q => p.1 ≤ q.1) := hw.sublist (List.drop_sublist _ _)
        rw [List.drop_eq_getElem_cons hlt, List.pairwise_cons] at hdrop
        exact le_trans hk (hdrop.1 y h)
    · rw [List.drop_eq_nil_of_le hge] at hy
      simp at hy
  rw [object.op_index]
  split
  · split
    · exact ⟨hw, hmode⟩
    · exact ⟨hins, hmode⟩
  · exact ⟨hins, hmode⟩

/-- `operator[]` in Sorted mode preserves strict key ascent and the mode flag. -/
theorem op_index_strict (o : object) (k : Utf8String) (hmode : o.m_keep_order = false)
    (hs : StrictlyAscending o.m_elements) :
    StrictlyAscending (o.op_index k).m_elements ∧ (o.op_index k).m_keep_order = false := by
  obtain ⟨hle, hbef, hat⟩ := find_loc_facts o k hmode
  rw [object.op_index]
  split
  · rename_i p hmatch
    obtain ⟨hilt, hip⟩ := List.getElem?_eq_some_iff.mp hmatch
    split
    · exact ⟨hs, hmode⟩
    · rename_i hpk
      have hpk2 : ¬ p.1 = k := by simpa using hpk
      have hk : (k : Utf8String) < p.1 :=
        lt_of_le_of_ne (hip ▸ not_lt.mp (hat hilt)) (fun h => hpk2 h.symm)
      refine ⟨pairwise_insertIdx_at _ _ _ hle hs hbef ?_, hmode⟩
      intro y hy
      rw [List.drop_eq_getElem_cons hilt] at hy
      rcases List.mem_cons.mp hy with h | h
      · exact h ▸ hip ▸ hk
      · have hdrop : (o.m_elements.drop (o.find_insert_location k)).Pairwise
            (fun p q => p.1 < q.1) := hs.sublist (List.drop_sublist _ _)
        rw [List.drop_eq_getElem_cons hilt, List.pairwise_cons] at hdrop
        exact lt_trans (hip ▸ hk) (hdrop.1 y h)
  · rename_i hmatch
    have hgi : o.m_elements.length ≤ o.find_insert_location k := by
      by_contra hc
      rw [List.getElem?_eq_getElem (by omega)] at hmatch
      cases hmatch
    refine ⟨pairwise_insertIdx_at _ _ _ hle hs hbef ?_, hmode⟩
    intro y hy
    rw [List.drop_eq_nil_of_le hgi] at hy
    simp at hy

/-- `operator[]` never changes the storage mode. -/
theorem op_index_keep_order (o : object) (k : Utf8String) :
    (o.op_index k).m_keep_order = o.m_keep_order := by
  rw [object.op_index]
  cases o.m_elements[o.find_insert_location k]? with
  | none => rfl
  | some p => by_cases h : p.1 == k <;> simp [h]

/-- A mutation step never changes the storage mode. -/
theorem apply_op_keep_order (o : object) (op : ObjOp) :
    (o.apply_op op).m_keep_order = o.m_keep_order := by
  cases op with
  | index_op k => exact op_index_keep_order o k
  | erase_op k =>
    rw [object.apply_op, object.erase_key]
    cases o.find_by_key k <;> rfl

/-- A mutation step in Sorted mode preserves weak key ascent. -/
theorem apply_op_weak (o : object) (op : ObjOp) (hmode : o.m_keep_order = false)
    (hw : WeaklyAscending o.m_elements) : WeaklyAscending (o.apply_op op).m_elements := by
  cases op with
  | index_op k => exact (op_index_weak o k hmode hw).1
  | erase_op k =>
    rw [object.apply_op, object.erase_key]
    cases o.find_by_key k with
    | none => exact hw
    | some i => exact hw.sublist (List.eraseIdx_sublist _ i)

/-- A mutation step in Sorted mode preserves strict key ascent. -/
theorem apply_op_strict (o : object) (op : ObjOp) (hmode : o.m_keep_order = false)
    (hs : StrictlyAscending o.m_elements) : StrictlyAscending (o.apply_op op).m_elements := by
  cases op with
  | index_op k => exact (op_index_strict o k hmode hs).1
  | erase_op k =>
    rw [object.apply_op, object.erase_key]
    cases o.find_by_key k with
    | none => exact hs
    | some i => exact hs.sublist (List.eraseIdx_sublist _ i)

/-- Any mutation sequence in Sorted mode preserves weak key ascent. -/
theorem apply_ops_weak (ops : List ObjOp) : ∀ o : object, o.m_keep_order = false →
    WeaklyAscending o.m_elements →
    (o.apply_ops ops).m_keep_order = false ∧ WeaklyAscending (o.apply_ops ops).m_elements := by
  induction ops with
  | nil => exact fun o h1 h2 => ⟨h1, h2⟩
  | cons op rest ih =>
    intro o h1 h2
    rw [object.apply_ops, List.foldl_cons]
    exact ih (o.apply_op op) ((apply_op_keep_order o op).trans h1)
      (apply_op_weak o op h1 h2)

/-- Any mutation sequence in Sorted mode preserves strict key ascent. -/
theorem apply_ops_strict (ops : List ObjOp) : ∀ o : object, o.m_keep_order = false →
    StrictlyAscending o.m_elements →
    StrictlyAscending ((o.apply_ops ops)).m_elements := by
  induction ops with
  | nil => exact fun o h1 h2 => h2
  | cons op rest ih =>
    intro o h1 h2
    rw [object.apply_ops, List.foldl_cons]
    exact ih (o.apply_op op) ((apply_op_keep_order o op).trans h1)
      (apply_op_strict o op h1 h2)

end object

/-- C2 as literally stated is false: the pre-populated constructor sorts but
never merges duplicate keys, so a Sorted object built from two `"a"` fields
has storage keys `"a", "a"`, which is not strictly ascending. -/
theorem c2_sorted_invariant_counterexample :
    ¬ StrictlyAscending
      (object.from_fields [(['a'], JValue.jnull), (['a'], JValue.jnull)] false).m_elements := by
  intro h
  rw [object.from_fields] at h
  simp only [Bool.false_eq_true, if_false, object.sort_pairs, object.insert_sorted,
    object.compare_pairs] at h
  rw [if_neg (by simp)] at h
  rw [StrictlyAscending, List.pairwise_cons] at h
  exact absurd (h.1 _ (List.mem_singleton.mpr rfl)) (lt_irrefl _)

/-- C2 (amended) — Sorted invariant: for an Object created in Sorted mode from
a field vector, after any sequence of keyed indexed-write insertions and
erasures the storage keys are weakly ascending under byte-wise comparison;
they are strictly ascending provided the constructor input carried pairwise
distinct keys (in particular when the object started empty). Duplicate keys
supplied to the constructor survive sorting, so only weak ascent holds in
general. -/
theorem c2_sorted_invariant (fields : List (Utf8String × JValue)) (ops : List ObjOp) :
    WeaklyAscending ((object.from_fields fields false).apply_ops ops).m_elements ∧
    ((fields.map Prod.fst).Nodup →
      StrictlyAscending ((object.from_fields fields false).apply_ops ops).m_elements) := by
  have hmode : (object.from_fields fields false).m_keep_order = false := rfl
  have hsorted : (object.from_fields fields false).m_elements = object.sort_pairs fields := rfl
  constructor
  · exact (object.apply_ops_weak ops _ hmode (hsorted ▸ object.sort_pairs_weak fields)).2
  · intro hnodup
    refine object.apply_ops_strict ops _ hmode ?_
    rw [hsorted]
    refine object.weak_nodup_strict _ (object.sort_pairs_weak fields) ?_
    exact (((object.sort_pairs_perm fields).map Prod.fst).nodup_iff).mpr hnodup

/-- Witness for C2 at a concrete run: Sorted object from distinct-key fields
`b, a`, then insert `c` and erase `a`; keys stay strictly ascending. -/
theorem c2_sorted_invariant_witness :
    StrictlyAscending
      ((object.from_fields [(['b'], JValue.jnull), (['a'], JValue.jnull)] false).apply_ops
        [ObjOp.index_op ['c'], ObjOp.erase_op ['a']]).m_elements :=
  (c2_sorted_invariant [(['b'], JValue.jnull), (['a'], JValue.jnull)]
    [ObjOp.index_op ['c'], ObjOp.erase_op ['a']]).2 (by simp)

theorem findIdx_le_of_pred {α : Type} (f : α → Bool) (l : List α) (j : Nat)
    (hj : j < l.length) (hpj : f (l[j]) = true) : l.findIdx f ≤ j := by
  by_contra hc
  have hfalse := @List.not_of_lt_findIdx _ f l j (by omega)
  simp [hfalse] at hpj

namespace object

/-- If `i` is the first index whose key is `k`, `find_by_key` returns `i`:
in Ordered mode by the first-match linear scan, in Sorted mode (on weakly
ascending storage) because the lower bound lands on the first key not below
`k`, which is this first occurrence. -/
theorem find_by_key_eq_first (o : object) (k : Utf8String)
    (hwf : o.m_keep_order = false → WeaklyAscending o.m_elements)
    (i : Nat) (hlt : i < o.m_elements.length) (hk : (o.m_elements[i]).1 = k)
    (hfirst : ∀ (j : Nat) (hj : j < o.m_elements.length), j < i → (o.m_elements[j]).1 ≠ k) :
    o.find_by_key k = some i := by
  have hloc : o.find_insert_location k = i := by
    cases hmode : o.m_keep_order with
    | true =>
      rw [object.find_insert_location, hmode]
      simp only [if_true]
      have hle : o.m_elements.findIdx (fun p : Utf8String × JValue => p.1 == k) ≤ i :=
        findIdx_le_of_pred _ _ i hlt (by simp [hk])
      rcases Nat.lt_or_ge (o.m_elements.findIdx (fun p : Utf8String × JValue => p.1 == k)) i
        with hl | hg
      · exfalso
        have hflt : o.m_elements.findIdx (fun p : Utf8String × JValue => p.1 == k) <
            o.m_elements.length := by omega
        have hpred := @List.findIdx_getElem _ _ _ hflt
        simp only [beq_iff_eq] at hpred
        exact hfirst _ hflt hl hpred
      · omega
    | false =>
      have hw := hwf hmode
      rw [object.find_insert_location, hmode]
      simp only [Bool.false_eq_true, if_false]
      have hle : o.m_elements.findIdx
          (fun p : Utf8String × JValue => ! object.compare_with_key p k) ≤ i :=
        findIdx_le_of_pred _ _ i hlt (by simp [hk, object.compare_with_key])
      rcases Nat.lt_or_ge (o.m_elements.findIdx
          (fun p : Utf8String × JValue => ! object.compare_with_key p k)) i with hl | hg
      · exfalso
        have hflt : o.m_elements.findIdx
            (fun p : Utf8String × JValue => ! object.compare_with_key p k) <
            o.m_elements.length := by omega
        have hpred := @List.findIdx_getElem _ _ _ hflt
        simp only [object.compare_with_key, Bool.not_eq_true', decide_eq_false_iff_not] at hpred
        have hgef : k ≤ (o.m_elements[o.m_elements.findIdx
            (fun p : Utf8String × JValue => ! object.compare_with_key p k)]).1 :=
          not_lt.mp hpred
        have hlef := List.pairwise_iff_getElem.mp hw _ _ hflt hlt hl
        exact hfirst _ hflt hl (le_antisymm (hk ▸ hlef) hgef)
      · omega
  rw [object.find_by_key, hloc, List.getElem?_eq_getElem hlt]
  show (if ((o.m_elements[i]).1 == k) = true then some i else none) = some i
  rw [if_pos (by simpa using hk)]

/-- A successful `find_by_key` points inside the storage, at an entry whose
key is the searched one. -/
theorem find_by_key_some_lt (o : object) (k : Utf8String) (i : Nat)
    (h : o.find_by_key k = some i) :
    ∃ hlt : i < o.m_elements.length, (o.m_elements[i]).1 = k := by
  rw [object.find_by_key] at h
  split at h
  · rename_i p hmatch
    split at h
    · rename_i hpk
      cases h
      obtain ⟨hlt, hpe⟩ := List.getElem?_eq_some_iff.mp hmatch
      exact ⟨hlt, by rw [hpe]; simpa using hpk⟩
    · cases h
  · cases h

/-- `find_by_key` returns the end iterator exactly when the key is absent. -/
theorem find_by_key_none_iff (o : object) (k : Utf8String)
    (hwf : o.m_keep_order = false → WeaklyAscending o.m_elements) :
    (o.find_by_key k = none ↔ ∀ p ∈ o.m_elements, p.1 ≠ k) := by
  constructor
  · intro hnone p hp hpk
    obtain ⟨j, hj, hje⟩ := List.mem_iff_getElem.mp hp
    have hle : o.m_elements.findIdx (fun p : Utf8String × JValue => p.1 == k) ≤ j :=
      findIdx_le_of_pred _ _ j hj (by simp [hje, hpk])
    have hflt : o.m_elements.findIdx (fun p : Utf8String × JValue => p.1 == k) <
        o.m_elements.length := by omega
    have hpred := @List.findIdx_getElem _ _ _ hflt
    simp only [beq_iff_eq] at hpred
    have hf := find_by_key_eq_first o k hwf _ hflt hpred (fun j2 hj2 hlt2 => by
      have := @List.not_of_lt_findIdx _ (fun p : Utf8String × JValue => p.1 == k)
        o.m_elements j2 hlt2
      simpa using this)
    rw [hf] at hnone
    cases hnone
  · intro habs
    rw [object.find_by_key]
    cases hmatch : o.m_elements[o.find_insert_location k]? with
    | none => rfl
    | some p =>
      obtain ⟨hlt2, hpe⟩ := List.getElem?_eq_some_iff.mp hmatch
      show (if (p.1 == k) = true then some (o.find_insert_location k) else none) = none
      rw [if_neg (by simpa using habs p (hpe ▸ List.getElem_mem hlt2))]

end object

/-- C8 — Object key errors: `at(key)` and `erase(key)` fail with KeyNotFound
exactly when the key is absent (the failing call leaves the object unchanged —
the model returns `none` and no new storage); when the key is present, with
`i` its first index in storage order, `at` returns that entry's value and
`erase` removes exactly that entry. The hypothesis is the Sorted-mode storage
invariant established by C2 (Ordered-mode storage needs no hypothesis). -/
theorem c8_object_key_errors (o : object) (k : Utf8String)
    (hwf : o.m_keep_order = false → WeaklyAscending o.m_elements) :
    (o.at_key k = none ↔ ∀ p ∈ o.m_elements, p.1 ≠ k) ∧
    (o.erase_key k = none ↔ ∀ p ∈ o.m_elements, p.1 ≠ k) ∧
    (∀ (i : Nat) (hlt : i < o.m_elements.length),
      (o.m_elements[i]).1 = k →
      (∀ (j : Nat) (hj : j < o.m_elements.length), j < i → (o.m_elements[j]).1 ≠ k) →
      o.at_key k = some (o.m_elements[i]).2 ∧
      o.erase_key k = some ⟨o.m_elements.eraseIdx i, o.m_keep_order⟩) := by
  have hfind := object.find_by_key_none_iff o k hwf
  refine ⟨⟨?_, ?_⟩, ⟨?_, ?_⟩, ?_⟩
  · intro h
    rw [← hfind]
    cases hf : o.find_by_key k with
    | none => rfl
    | some i =>
      exfalso
      obtain ⟨hlt, _⟩ := object.find_by_key_some_lt o k i hf
      rw [object.at_key, hf] at h
      simp [List.getElem?_eq_getElem hlt] at h
  · intro h
    rw [object.at_key, hfind.mpr h]
    rfl
  · intro h
    rw [← hfind]
    cases hf : o.find_by_key k with
    | none => rfl
    | some i => simp [object.erase_key, hf] at h
  · intro h
    simp [object.erase_key, hfind.mpr h]
  · intro i hlt hk hfirst
    have hf := object.find_by_key_eq_first o k hwf i hlt hk hfirst
    constructor
    · rw [object.at_key, hf]
      simp [List.getElem?_eq_getElem hlt]
    · simp [object.erase_key, hf]

/-- Witness for C8 on a concrete Sorted one-entry object: a missing key fails,
the present key is read and erased. -/
theorem c8_object_key_errors_witness :
    object.at_key ⟨[(['a'], JValue.jbool true)], false⟩ ['b'] = none ∧
    object.at_key ⟨[(['a'], JValue.jbool true)], false⟩ ['a'] = some (JValue.jbool true) ∧
    object.erase_key ⟨[(['a'], JValue.jbool true)], false⟩ ['a'] = some ⟨[], false⟩ := by
  have hwf : (⟨[(['a'], JValue.jbool true)], false⟩ : object).m_keep_order = false →
      WeaklyAscending (⟨[(['a'], JValue.jbool true)], false⟩ : object).m_elements :=
    fun _ => List.pairwise_singleton _ _
  have hmiss := (c8_object_key_errors ⟨[(['a'], JValue.jbool true)], false⟩ ['b'] hwf).1.mpr
    (by
      intro p hp
      rw [List.mem_singleton] at hp
      subst hp
      decide)
  have hhit := (c8_object_key_errors ⟨[(['a'], JValue.jbool true)], false⟩ ['a'] hwf).2.2 0
    (by decide) (by decide) (fun j hj hj0 => absurd hj0 (Nat.not_lt_zero j))
  exact ⟨hmiss, by simpa using hhit.1, by simpa using hhit.2⟩

/-- C10 — Duplicate keys survive pre-populated construction: in either storage
mode the constructor stores exactly the supplied field vector (sorting in
Sorted mode, which never merges or drops pairs), so `size()` equals the input
length even when a key occurs in several pairs. -/
theorem c10_duplicate_keys_survive_construction :
    (∀ (fields : List (Utf8String × JValue)) (keep_order : Bool),
      (object.from_fields fields keep_order).size = fields.length) ∧
    (object.from_fields [(['a'], JValue.jnull), (['a'], JValue.jbool true)] false).size = 2 := by
  have h : ∀ (fields : List (Utf8String × JValue)) (keep_order : Bool),
      (object.from_fields fields keep_order).size = fields.length := by
    intro fields keep_order
    rw [object.from_fields, object.size]
    cases keep_order
    · simp [object.length_sort_pairs]
    · simp
  exact ⟨h, h _ _⟩

mutual
/-- `value::operator==` (implemented in json.cpp, outside src/; modelled from
the spec, §3 structural equality): Null equals Null; Boolean, Number and
String compare by value of their representation (the cached escape flag is
not part of a string's representation); Array and Object compare by the
`_Array::is_equal` / `_Object::is_equal` members of json.h: entry count plus
pairwise comparison in storage order (the object's mode flag is not
compared). -/
def value_eq : JValue → JValue → Bool
  | JValue.jnull, JValue.jnull => true
  | JValue.jbool a, JValue.jbool b => a == b
  | JValue.jnum a, JValue.jnum b => a.equals b
  | JValue.jstr s _, JValue.jstr t _ => s == t
  | JValue.jarr xs, JValue.jarr ys => xs.length == ys.length && array_is_equal xs ys
  | JValue.jobj xs _, JValue.jobj ys _ => xs.length == ys.length && object_is_equal xs ys
  | _, _ => false

/-- The element loop of `_Array::is_equal` (json.h): compare pairwise while
both iterators are in range (the caller has already matched the sizes). -/
def array_is_equal : List JValue → List JValue → Bool
  | x :: xs, y :: ys => value_eq x y && array_is_equal xs ys
  | _, _ => true

/-- The `std::equal` call of `_Object::is_equal` (json.h): pairwise
`std::pair` equality — key equality and value equality — in storage order. -/
def object_is_equal : List (Utf8String × JValue) → List (Utf8String × JValue) → Bool
  | x :: xs, y :: ys => (x.1 == y.1 && value_eq x.2 y.2) && object_is_equal xs ys
  | _, _ => true
end

theorem object_is_equal_iff (xs : List (Utf8String × JValue)) :
    ∀ ys : List (Utf8String × JValue), xs.length = ys.length →
      (object_is_equal xs ys = true ↔
        ∀ (i : Nat) (hx : i < xs.length) (hy : i < ys.length),
          (xs[i]).1 = (ys[i]).1 ∧ value_eq (xs[i]).2 (ys[i]).2 = true) := by
  induction xs with
  | nil =>
    intro ys hlen
    cases ys with
    | nil =>
      refine ⟨fun _ i hx hy => absurd hx (by simp), fun _ => rfl⟩
    | cons y ys => simp at hlen
  | cons x xs ih =>
    intro ys hlen
    cases ys with
    | nil => simp at hlen
    | cons y ys =>
      rw [object_is_equal, Bool.and_eq_true, Bool.and_eq_true, beq_iff_eq]
      have hlen2 : xs.length = ys.length := by simpa using hlen
      rw [ih ys hlen2]
      constructor
      · rintro ⟨⟨hk, hv⟩, hrest⟩ i hx hy
        cases i with
        | zero => exact ⟨hk, hv⟩
        | succ j => exact hrest j (by simpa using hx) (by simpa using hy)
      · intro h
        refine ⟨h 0 (by simp) (by simp), fun j hx hy => ?_⟩
        exact h (j + 1) (by simpa using hx) (by simpa using hy)

/-- C5 — Object equality is storage-order-sensitive: two object values compare
equal exactly when they have the same entry count and pairwise-equal
(key, value) pairs in storage order; concretely, the Sorted and the Ordered
object built from the same fields `b, a` hold the same entry set (a
permutation) yet compare unequal, because their storage orders differ. -/
theorem c5_object_equality_storage_order :
    (∀ (xs ys : List (Utf8String × JValue)) (kx ky : Bool),
      value_eq (JValue.jobj xs kx) (JValue.jobj ys ky) = true ↔
        (xs.length = ys.length ∧
          ∀ (i : Nat) (hx : i < xs.length) (hy : i < ys.length),
            (xs[i]).1 = (ys[i]).1 ∧ value_eq (xs[i]).2 (ys[i]).2 = true)) ∧
    (List.Perm
        (object.from_fields [(['b'], JValue.jnull), (['a'], JValue.jnull)] false).m_elements
        (object.from_fields [(['b'], JValue.jnull), (['a'], JValue.jnull)] true).m_elements ∧
      value_eq
        (JValue.jobj
          (object.from_fields [(['b'], JValue.jnull), (['a'], JValue.jnull)] false).m_elements
          false)
        (JValue.jobj
          (object.from_fields [(['b'], JValue.jnull), (['a'], JValue.jnull)] true).m_elements
          true) = false) := by
  refine ⟨?_, ?_, ?_⟩
  · intro xs ys kx ky
    rw [value_eq, Bool.and_eq_true, beq_iff_eq]
    constructor
    · rintro ⟨hlen, heq⟩
      exact ⟨hlen, (object_is_equal_iff xs ys hlen).mp heq⟩
    · rintro ⟨hlen, heq⟩
      exact ⟨hlen, (object_is_equal_iff xs ys hlen).mpr heq⟩
  · have h1 : (object.from_fields [(['b'], JValue.jnull), (['a'], JValue.jnull)] false).m_elements
        = [(['a'], JValue.jnull), (['b'], JValue.jnull)] := by rfl
    have h2 : (object.from_fields [(['b'], JValue.jnull), (['a'], JValue.jnull)] true).m_elements
        = [(['b'], JValue.jnull), (['a'], JValue.jnull)] := rfl
    rw [h1, h2]
    exact List.Perm.swap (['b'], JValue.jnull) (['a'], JValue.jnull) []
  · rfl

/-- Witness for C5: the equality characterization applied to two concrete
one-entry objects that agree pairwise. -/
theorem c5_object_equality_storage_order_witness :
    value_eq (JValue.jobj [(['a'], JValue.jbool true)] false)
      (JValue.jobj [(['a'], JValue.jbool true)] true) = true := by
  refine (c5_object_equality_storage_order.1 _ _ false true).mpr ⟨rfl, ?_⟩
  intro i hx hy
  have h0 : i = 0 := Nat.lt_one_iff.mp (by simpa using hx)
  subst h0
  exact ⟨rfl, rfl⟩

/-- The decimal digit characters used by integer formatting. -/
def digit_char (n : Nat) : Char :=
  match n with
  | 0 => '0' | 1 => '1' | 2 => '2' | 3 => '3' | 4 => '4'
  | 5 => '5' | 6 => '6' | 7 => '7' | 8 => '8' | _ => '9'

/-- The numeric value of a decimal digit character. -/
def digit_val (c : Char) : Nat := c.toNat - 48

theorem digit_val_digit_char : ∀ n, n < 10 → digit_val (digit_char n) = n := by decide

theorem isDigit_digit_char : ∀ n, n < 10 → (digit_char n).isDigit = true := by decide

/-- Decimal formatting of an unsigned integer, most significant digit first
(the fuel argument only drives the recursion; `n + 1` divisions by ten always
suffice). -/
def toDigitsAux : Nat → Nat → List Char → List Char
  | 0, _, acc => acc
  | fuel + 1, n, acc =>
    if n < 10 then digit_char n :: acc
    else toDigitsAux fuel (n / 10) (digit_char (n % 10) :: acc)

/-- Decimal rendering of an unsigned integer (`std::to_string` on the
integral payloads). -/
def nat_to_chars (n : Nat) : List Char := toDigitsAux (n + 1) n []

theorem toDigitsAux_spec (n : Nat) :
    ∀ (fuel : Nat) (acc : List Char), n < fuel →
      toDigitsAux fuel n acc = nat_to_chars n ++ acc := by
  induction n using Nat.strong_induction_on with
  | _ n ih =>
    intro fuel acc hfuel
    match fuel with
    | 0 => omega
    | fuel + 1 =>
      by_cases hn : n < 10
      · rw [toDigitsAux, if_pos hn, nat_to_chars, toDigitsAux, if_pos hn]
        rfl
      · have hdiv : n / 10 < n := Nat.div_lt_self (by omega) (by omega)
        rw [toDigitsAux, if_neg hn, nat_to_chars, toDigitsAux, if_neg hn]
        rw [ih (n / 10) hdiv fuel _ (by omega), ih (n / 10) hdiv n _ (by omega)]
        simp

/-- One-step unfolding for `n ≥ 10`. -/
theorem nat_to_chars_step (n : Nat) (hn : 10 ≤ n) :
    nat_to_chars n = nat_to_chars (n / 10) ++ [digit_char (n % 10)] := by
  have hdiv : n / 10 < n := Nat.div_lt_self (by omega) (by omega)
  rw [nat_to_chars, toDigitsAux, if_neg (by omega)]
  exact toDigitsAux_spec (n / 10) n _ (by omega)

theorem nat_to_chars_small (n : Nat) (hn : n < 10) :
    nat_to_chars n = [digit_char n] := by
  rw [nat_to_chars, toDigitsAux, if_pos hn]

theorem nat_to_chars_ne_nil (n : Nat) : nat_to_chars n ≠ [] := by
  by_cases hn : n < 10
  · rw [nat_to_chars_small n hn]
    simp
  · rw [nat_to_chars_step n (by omega)]
    simp

theorem nat_to_chars_all_digits (n : Nat) : ∀ c ∈ nat_to_chars n, c.isDigit = true := by
  induction n using Nat.strong_induction_on with
  | _ n ih =>
    intro c hc
    by_cases hn : n < 10
    · rw [nat_to_chars_small n hn, List.mem_singleton] at hc
      exact hc ▸ isDigit_digit_char n hn
    · rw [nat_to_chars_step n (by omega), List.mem_append] at hc
      have hdivlt : n / 10 < n := Nat.div_lt_self (by omega) (by omega)
      rcases hc with hmem | hmem
      · exact ih (n / 10) hdivlt c hmem
      · rw [List.mem_singleton] at hmem
        exact hmem ▸ isDigit_digit_char (n % 10) (Nat.mod_lt n (by omega))

/-- Decimal digit string to unsigned integer (the number lexer's
accumulation). -/
def digits_to_nat (ds : List Char) : Nat :=
  ds.foldl (fun a c => a * 10 + digit_val c) 0

theorem digits_foldl_acc (ds : List Char) :
    ∀ a : Nat, ds.foldl (fun a c => a * 10 + digit_val c) a =
      a * 10 ^ ds.length + digits_to_nat ds := by
  induction ds with
  | nil => intro a; simp [digits_to_nat]
  | cons c ds ih =>
    intro a
    rw [List.foldl_cons, ih (a * 10 + digit_val c)]
    have h2 : digits_to_nat (c :: ds) = digit_val c * 10 ^ ds.length + digits_to_nat ds := by
      rw [digits_to_nat, List.foldl_cons]
      have h3 := ih (0 * 10 + digit_val c)
      simpa using h3
    rw [h2, List.length_cons]
    ring

theorem digits_to_nat_append_singleton (ds : List Char) (c : Char) :
    digits_to_nat (ds ++ [c]) = digits_to_nat ds * 10 + digit_val c := by
  rw [digits_to_nat, List.foldl_append]
  rfl

theorem digits_to_nat_nat_to_chars (n : Nat) : digits_to_nat (nat_to_chars n) = n := by
  induction n using Nat.strong_induction_on with
  | _ n ih =>
    by_cases hn : n < 10
    · rw [nat_to_chars_small n hn, digits_to_nat, List.foldl_cons, List.foldl_nil]
      rw [Nat.zero_mul, Nat.zero_add]
      exact digit_val_digit_char n hn
    · rw [nat_to_chars_step n (by omega), digits_to_nat_append_singleton,
        ih (n / 10) (Nat.div_lt_self (by omega) (by omega)),
        digit_val_digit_char (n % 10) (Nat.mod_lt n (by omega))]
      omega

theorem nat_to_chars_length_le (k : Nat) : ∀ n, n < 10 ^ k → 1 ≤ k →
    (nat_to_chars n).length ≤ k := by
  induction k with
  | zero => intro n _ h1; omega
  | succ k ih =>
    intro n hn _
    by_cases hsmall : n < 10
    · rw [nat_to_chars_small n hsmall]
      simp
    · have hk : 1 ≤ k := by
        by_contra hk0
        have : k = 0 := by omega
        subst this
        simp at hn
        omega
      rw [nat_to_chars_step n (by omega), List.length_append]
      have hdiv : n / 10 < 10 ^ k := by
        rw [Nat.div_lt_iff_lt_mul (by omega)]
        calc n < 10 ^ (k + 1) := hn
        _ = 10 ^ k * 10 := by ring
      have := ih (n / 10) hdiv hk
      simp
      omega

theorem digits_to_nat_replicate_zero (j : Nat) (ds : List Char) :
    digits_to_nat (List.replicate j '0' ++ ds) =
      ds.foldl (fun a c => a * 10 + digit_val c) 0 := by
  induction j with
  | zero => rfl
  | succ j ih =>
    rw [List.replicate_succ, List.cons_append, digits_to_nat, List.foldl_cons]
    have : (0 : Nat) * 10 + digit_val '0' = 0 := by decide
    rw [this]
    exact ih

/-- `takeWhile`/`dropWhile` split an all-digits run followed by a non-digit
boundary exactly at the boundary. -/
theorem span_digits (ds : List Char) :
    ∀ rest : List Char, (∀ c ∈ ds, c.isDigit = true) →
      (rest = [] ∨ ∃ c r2, rest = c :: r2 ∧ c.isDigit = false) →
      ((ds ++ rest).takeWhile Char.isDigit = ds ∧
        (ds ++ rest).dropWhile Char.isDigit = rest) := by
  induction ds with
  | nil =>
    intro rest _ hrest
    rcases hrest with h | ⟨c, r2, hr, hc⟩
    · subst h
      exact ⟨rfl, rfl⟩
    · subst hr
      constructor
      · simp [List.takeWhile_cons, hc]
      · simp [List.dropWhile_cons, hc]
    | cons d ds ih =>
    intro rest hds hrest
    have hd : d.isDigit = true := hds d (List.mem_cons_self d ds)
    obtain ⟨ht, hdr⟩ := ih rest (fun c hc => hds c (List.mem_cons_of_mem d hc)) hrest
    constructor
    · simp [List.takeWhile_cons, hd, ht]
    · simp [List.dropWhile_cons, hd, hdr]

/-- Decimal rendering of an `int64` payload (sign, then magnitude). -/
def int_to_chars (v : Int) : List Char :=
  if v < 0 then '-' :: nat_to_chars v.natAbs else nat_to_chars v.toNat

/-- The fractional digit block of a double rendering: the `k` decimal digits
of `x` (which is below `10^k`), left-padded with zeros. -/
def frac_chars (x k : Nat) : List Char :=
  List.replicate (k - (nat_to_chars x).length) '0' ++ nat_to_chars x

/-- Rendering of the double payload `m * 10^(-k)`: sign, integer part, and a
fractional part that is always present (`.0` when the value is integral), so
that reparsing the text reproduces the stored double exactly — including its
Double tag. -/
def double_to_chars (m : Int) (k : Nat) : List Char :=
  (if m < 0 then ['-'] else []) ++
    nat_to_chars (m.natAbs / 10 ^ k) ++
    '.' :: (if k = 0 then ['0'] else frac_chars (m.natAbs % 10 ^ k) k)

/-- Modelled from the spec: `_Number::serialize_impl` lives in json.cpp
(outside src/); §4.6 — integral-tagged numbers render as a plain decimal
integer with no fractional suffix, Double-tagged numbers render via a
round-trip-safe float-to-text conversion (the decoded text, reparsed, must
reproduce the identical stored double). -/
def serialize_number : number → List Char
  | number.signed_int v => int_to_chars v
  | number.unsigned_int n => nat_to_chars n
  | number.double_val m k => double_to_chars m k

/-- A character the JSON string writer must escape: the quote, the backslash,
or a control character below `0x20` (spec §4.6). -/
def needs_escape (c : Char) : Bool :=
  c == '"' || c == '\\' || decide (c.toNat < 32)

/-- Modelled from the spec: `_UTF8String::has_escape_chars` lives in json.cpp;
it reports whether the string contains characters that should be escaped. -/
def has_escape_chars (s : List Char) : Bool := s.any needs_escape

/-- Lower-case hexadecimal digits for `\u00XX` escapes. -/
def hex_char (n : Nat) : Char :=
  match n with
  | 0 => '0' | 1 => '1' | 2 => '2' | 3 => '3' | 4 => '4'
  | 5 => '5' | 6 => '6' | 7 => '7' | 8 => '8' | 9 => '9'
  | 10 => 'a' | 11 => 'b' | 12 => 'c' | 13 => 'd' | 14 => 'e' | _ => 'f'

/-- Modelled from the spec: the per-character escape step of
`append_escape_string` (json.cpp): quote and backslash get their two-character
escapes, the named control characters get `\b \f \n \r \t`, every other
control character becomes `\u00XX`, and all remaining characters pass through
verbatim. -/
def escape_char (c : Char) : List Char :=
  if c == '"' then ['\\', '"']
  else if c == '\\' then ['\\', '\\']
  else if c.toNat == 8 then ['\\', 'b']
  else if c.toNat == 12 then ['\\', 'f']
  else if c == '\n' then ['\\', 'n']
  else if c == '\r' then ['\\', 'r']
  else if c == '\t' then ['\\', 't']
  else if c.toNat < 32 then
    ['\\', 'u', '0', '0', hex_char (c.toNat / 16), hex_char (c.toNat % 16)]
  else [c]

/-- Escape every character of a string. -/
def escape_string (s : List Char) : List Char :=
  s.foldr (fun c acc => escape_char c ++ acc) []

/-- Modelled from the spec: `_UTF8String::serialize_impl` (json.cpp) — quote
the string, taking the verbatim fast path when the cached escape flag is
false and the full escape scan otherwise. -/
def string_serialize (s : List Char) (hasEsc : Bool) : List Char :=
  if hasEsc then '"' :: (escape_string s ++ ['"']) else '"' :: (s ++ ['"'])

/-- Modelled from the spec: `details::format_string` (declared in json.h,
defined in json.cpp) — object keys are always written through the escape
scan. -/
def format_string (s : List Char) : List Char :=
  '"' :: (escape_string s ++ ['"'])

/-- The value of one hexadecimal digit character, `none` otherwise. -/
def parse_hex_digit (c : Char) : Option Nat :=
  if c.isDigit then some (c.toNat - 48)
  else if 97 ≤ c.toNat ∧ c.toNat ≤ 102 then some (c.toNat - 87)
  else if 65 ≤ c.toNat ∧ c.toNat ≤ 70 then some (c.toNat - 55)
  else none

/-- The inverse of the short escapes `\" \\ \/ \b \f \n \r \t`. -/
def unescape_char (c : Char) : Option Char :=
  if c = '"' ∨ c = '\\' ∨ c = '/' then some c
  else if c = 'b' then some (Char.ofNat 8)
  else if c = 'f' then some (Char.ofNat 12)
  else if c = 'n' then some '\n'
  else if c = 'r' then some '\r'
  else if c = 't' then some '\t'
  else none

/-- Modelled from the spec: the string lexer (§4.5) — consume characters up
to the closing quote, processing the standard escapes (including `\uXXXX`),
rejecting raw control characters and unterminated strings, and recording
whether any escape sequence occurred (the flag cached on the resulting
string value). Returns (content, escape-seen flag, remaining input). -/
def lex_string : List Char → Option (List Char × Bool × List Char)
  | [] => none
  | c :: rest =>
    if c = '"' then some ([], false, rest)
    else if c = '\\' then
      match rest with
      | [] => none
      | e :: r2 =>
        if e = 'u' then
          match r2 with
          | h1 :: h2 :: h3 :: h4 :: r3 =>
            match parse_hex_digit h1, parse_hex_digit h2, parse_hex_digit h3,
                parse_hex_digit h4 with
            | some a, some b, some c2, some d =>
              match lex_string r3 with
              | some (s, _, r4) =>
                some (Char.ofNat (((a * 16 + b) * 16 + c2) * 16 + d) :: s, true, r4)
              | none => none
            | _, _, _, _ => none
          | _ => none
        else
          match unescape_char e with
          | some c2 =>
            match lex_string r2 with
            | some (s, _, r3) => some (c2 :: s, true, r3)
            | none => none
          | none => none
    else if c.toNat < 32 then none
    else
      match lex_string rest with
      | some (s, esc, r2) => some (c :: s, esc, r2)
      | none => none

/-- Fold an optional exponent into the scaled-decimal double payload
`m * 10^(-k)`. -/
def apply_exponent (m : Int) (k : Nat) (eneg : Bool) (e : Nat) : number :=
  if eneg then number.double_val m (k + e)
  else if k ≤ e then number.double_val (m * (10 : Int) ^ (e - k)) 0
  else number.double_val m (k - e)

/-- The digit run of an exponent, applied to the pending payload. -/
def lex_exponent_digits (eneg : Bool) (r1 : List Char) (m : Int) (k : Nat) :
    Option (number × List Char) :=
  if (r1.takeWhile Char.isDigit).isEmpty then none
  else some (apply_exponent m k eneg (digits_to_nat (r1.takeWhile Char.isDigit)),
    r1.dropWhile Char.isDigit)

/-- The exponent tail after `e`/`E`: optional sign and a digit run. -/
def lex_exponent_tail (cs : List Char) (m : Int) (k : Nat) : Option (number × List Char) :=
  match cs with
  | [] => none
  | c :: r =>
    if c = '-' then lex_exponent_digits true r m k
    else if c = '+' then lex_exponent_digits false r m k
    else lex_exponent_digits false cs m k

/-- The integral tagging rule of §3 applied to a lexed magnitude. -/
def lex_integral (neg : Bool) (ip : Nat) (rest : List Char) :
    Option (number × List Char) :=
  if neg then
    if ip ≤ 2 ^ 63 then some (number.signed_int (-(ip : Int)), rest)
    else some (number.double_val (-(ip : Int)) 0, rest)
  else
    if ip < 2 ^ 64 then some (number.unsigned_int ip, rest)
    else some (number.double_val (ip : Int) 0, rest)

/-- After a fraction: an optional exponent, else a Double with the scaled
decimal payload. -/
def lex_after_fraction (neg : Bool) (m0 : Nat) (k : Nat) (cs4 : List Char) :
    Option (number × List Char) :=
  match cs4 with
  | [] => some (number.double_val (if neg then -(m0 : Int) else (m0 : Int)) k, [])
  | c4 :: cs5 =>
    if c4 = 'e' ∨ c4 = 'E' then
      lex_exponent_tail cs5 (if neg then -(m0 : Int) else (m0 : Int)) k
    else some (number.double_val (if neg then -(m0 : Int) else (m0 : Int)) k, c4 :: cs5)

/-- The body of the number lexer after the optional sign: digit run, optional
fraction, optional exponent, with the integral-vs-double tagging of §3. -/
def lex_number_body (neg : Bool) (cs1 : List Char) : Option (number × List Char) :=
  if (cs1.takeWhile Char.isDigit).isEmpty then none
  else
    match cs1.dropWhile Char.isDigit with
    | [] => lex_integral neg (digits_to_nat (cs1.takeWhile Char.isDigit)) []
    | c2 :: cs3 =>
      if c2 = '.' then
        if (cs3.takeWhile Char.isDigit).isEmpty then none
        else
          lex_after_fraction neg
            (digits_to_nat (cs1.takeWhile Char.isDigit) *
                10 ^ (cs3.takeWhile Char.isDigit).length +
              digits_to_nat (cs3.takeWhile Char.isDigit))
            (cs3.takeWhile Char.isDigit).length
            (cs3.dropWhile Char.isDigit)
      else if c2 = 'e' ∨ c2 = 'E' then
        lex_exponent_tail cs3
          (if neg then -(digits_to_nat (cs1.takeWhile Char.isDigit) : Int)
            else (digits_to_nat (cs1.takeWhile Char.isDigit) : Int)) 0
      else lex_integral neg (digits_to_nat (cs1.takeWhile Char.isDigit)) (c2 :: cs3)

/-- Modelled from the spec: the number lexer (§4.5) — an optional minus sign,
an integer digit run, then an optional fraction and an optional exponent.
A literal with neither fraction nor exponent is integral: negative values
within `int64` range become SignedInt, non-negative values within `uint64`
range become UnsignedInt, and out-of-range magnitudes fall back to the double
representation (held exactly in this model). Any fraction or exponent makes
the result a Double. -/
def lex_number (cs : List Char) : Option (number × List Char) :=
  match cs with
  | [] => none
  | c :: rest =>
    if c = '-' then lex_number_body true rest else lex_number_body false cs

/-- JSON inter-token whitespace. -/
def is_ws_char (c : Char) : Bool :=
  decide (c = ' ' ∨ c = '\t' ∨ c = '\n' ∨ c = '\r')

/-- Consume a block comment body up to and including the closing `*/`;
`none` on an unterminated comment (MalformedComment). -/
def skip_block_comment : List Char → Option (List Char)
  | [] => none
  | c :: rest =>
    match rest with
    | d :: r2 => if c = '*' ∧ d = '/' then some r2 else skip_block_comment rest
    | [] => none

theorem skip_block_comment_length (cs : List Char) :
    ∀ r : List Char, skip_block_comment cs = some r → r.length ≤ cs.length := by
  induction cs with
  | nil => intro r h; cases h
  | cons c rest ih =>
    intro r h
    cases rest with
    | nil => exact Option.noConfusion h
    | cons d r2 =>
      have h2 : (if c = '*' ∧ d = '/' then some r2 else skip_block_comment (d :: r2))
          = some r := h
      by_cases hcd : c = '*' ∧ d = '/'
      · rw [if_pos hcd] at h2
        cases h2
        simp
        omega
      · rw [if_neg hcd] at h2
        have h3 := ih r h2
        simp at h3 ⊢
        omega

/-- Modelled from the spec: whitespace-and-comment skipping between tokens
(§4.5 — single-line and block comments may appear between tokens); `none`
models MalformedComment. The fuel is only a recursion bound; `length + 1`
always suffices since every step consumes input. -/
def skip_ws_fuel : Nat → List Char → Option (List Char)
  | 0, _ => none
  | _ + 1, [] => some []
  | fuel + 1, c :: rest =>
    if is_ws_char c then skip_ws_fuel fuel rest
    else if c = '/' then
      match rest with
      | [] => none
      | d :: r2 =>
        if d = '/' then skip_ws_fuel fuel (r2.dropWhile (fun c2 => ! (c2 == '\n')))
        else if d = '*' then
          match skip_block_comment r2 with
          | some r3 => skip_ws_fuel fuel r3
          | none => none
        else none
    else some (c :: rest)

/-- Skip whitespace and comments at the head of the input. -/
def skip_ws (cs : List Char) : Option (List Char) :=
  skip_ws_fuel (cs.length + 1) cs

theorem skip_ws_nil : skip_ws [] = some [] := rfl

theorem skip_ws_not_ws (c : Char) (rest : List Char)
    (h1 : is_ws_char c = false) (h2 : ¬ c = '/') :
    skip_ws (c :: rest) = some (c :: rest) := by
  simp [skip_ws, skip_ws_fuel, h1, h2]

mutual
/-- `value::format` / the per-kind `serialize_impl`s. The Array and Object
cases transcribe `_Array::serialize_impl` and `_Object::serialize_impl` from
json.h: bracket, comma-joined children in storage order, keys through
`format_string`. The scalar cases are modelled from the spec (§4.6). -/
def serialize_value : JValue → List Char
  | JValue.jnull => ['n', 'u', 'l', 'l']
  | JValue.jbool true => ['t', 'r', 'u', 'e']
  | JValue.jbool false => ['f', 'a', 'l', 's', 'e']
  | JValue.jnum n => serialize_number n
  | JValue.jstr s esc => string_serialize s esc
  | JValue.jarr elems => '[' :: (serialize_elements elems ++ [']'])
  | JValue.jobj entries _ => '{' :: (serialize_members entries ++ ['}'])

/-- The element loop of `_Array::serialize_impl`: children separated by
commas, no trailing comma. -/
def serialize_elements : List JValue → List Char
  | [] => []
  | [x] => serialize_value x
  | x :: y :: rest => serialize_value x ++ ',' :: serialize_elements (y :: rest)

/-- The member loop of `_Object::serialize_impl`: `"key":value` pairs
separated by commas. -/
def serialize_members : List (Utf8String × JValue) → List Char
  | [] => []
  | [e] => format_string e.1 ++ ':' :: serialize_value e.2
  | e :: f :: rest =>
    (format_string e.1 ++ ':' :: serialize_value e.2) ++ ',' :: serialize_members (f :: rest)
end

/-- The parser's fixed nesting bound (spec §4.5: "a fixed safety constant
(choose and document, e.g. 128)"). -/
def max_nesting_depth : Nat := 128

mutual
/-- Modelled from the spec: the recursive-descent parser (§4.5;
`JSON_Parser` lives in json.cpp, outside src/). One JSON value: leading
whitespace/comments, then a literal, string, number, array or object.
Array/object recursion increments the depth and fails beyond
`max_nesting_depth`. Objects collect their members in text order and then
build the `_Object` with the process default mode — Sorted (the
`keep_object_element_order` global defaults to false) — whose constructor
sorts the entries. The fuel only bounds recursion; `input length + 1`
suffices because every recursive call consumes input. -/
def parse_value : Nat → Nat → List Char → Option (JValue × List Char)
  | 0, _, _ => none
  | fuel + 1, depth, cs =>
    match skip_ws cs with
    | none => none
    | some cs1 =>
      match cs1 with
      | [] => none
      | c :: rest =>
        if c = 'n' then
          match rest with
          | c1 :: c2 :: c3 :: r2 =>
            if c1 = 'u' ∧ c2 = 'l' ∧ c3 = 'l' then some (JValue.jnull, r2) else none
          | _ => none
        else if c = 't' then
          match rest with
          | c1 :: c2 :: c3 :: r2 =>
            if c1 = 'r' ∧ c2 = 'u' ∧ c3 = 'e' then some (JValue.jbool true, r2) else none
          | _ => none
        else if c = 'f' then
          match rest with
          | c1 :: c2 :: c3 :: c4 :: r2 =>
            if c1 = 'a' ∧ c2 = 'l' ∧ c3 = 's' ∧ c4 = 'e' then
              some (JValue.jbool false, r2)
            else none
          | _ => none
        else if c = '"' then
          match lex_string rest with
          | some (s, esc, r2) => some (JValue.jstr s esc, r2)
          | none => none
        else if c = '[' then
          if max_nesting_depth ≤ depth then none
          else
            match skip_ws rest with
            | none => none
            | some cs2 =>
              match cs2 with
              | [] => none
              | c2 :: r2 =>
                if c2 = ']' then some (JValue.jarr [], r2)
                else
                  match parse_elements fuel (depth + 1) (c2 :: r2) with
                  | some (elems, r3) => some (JValue.jarr elems, r3)
                  | none => none
        else if c = '{' then
          if max_nesting_depth ≤ depth then none
          else
            match skip_ws rest with
            | none => none
            | some cs2 =>
              match cs2 with
              | [] => none
              | c2 :: r2 =>
                if c2 = '}' then some (JValue.jobj [] false, r2)
                else
                  match parse_members fuel (depth + 1) (c2 :: r2) with
                  | some (entries, r3) =>
                    some (JValue.jobj (object.sort_pairs entries) false, r3)
                  | none => none
        else
          match lex_number (c :: rest) with
          | some (n, r2) => some (JValue.jnum n, r2)
          | none => none

/-- One or more comma-separated array elements followed by `]` (which is
consumed). -/
def parse_elements : Nat → Nat → List Char → Option (List JValue × List Char)
  | 0, _, _ => none
  | fuel + 1, depth, cs =>
    match parse_value fuel depth cs with
    | none => none
    | some (v, r1) =>
      match skip_ws r1 with
      | none => none
      | some r2 =>
        match r2 with
        | [] => none
        | c :: r3 =>
          if c = ',' then
            match parse_elements fuel depth r3 with
            | some (vs, r4) => some (v :: vs, r4)
            | none => none
          else if c = ']' then some ([v], r3)
          else none

/-- One or more comma-separated `"key" : value` members followed by `}`
(which is consumed), collected in text order. -/
def parse_members : Nat → Nat → List Char → Option (List (Utf8String × JValue) × List Char)
  | 0, _, _ => none
  | fuel + 1, depth, cs =>
    match skip_ws cs with
    | none => none
    | some cs1 =>
      match cs1 with
      | [] => none
      | c :: r1 =>
        if c = '"' then
          match lex_string r1 with
          | none => none
          | some (key, _, r2) =>
            match skip_ws r2 with
            | none => none
            | some r3 =>
              match r3 with
              | [] => none
              | c3 :: r4 =>
                if c3 = ':' then
                  match parse_value fuel depth r4 with
                  | none => none
                  | some (v, r5) =>
                    match skip_ws r5 with
                    | none => none
                    | some r6 =>
                      match r6 with
                      | [] => none
                      | c6 :: r7 =>
                        if c6 = ',' then
                          match parse_members fuel depth r7 with
                          | some (es, r8) => some ((key, v) :: es, r8)
                          | none => none
                        else if c6 = '}' then some ([(key, v)], r7)
                        else none
                else none
        else none
end

/-- `value::parse` (single-shot entry point): parse one value, then require
only whitespace/comments up to the end of input
(left_over_character_in_stream otherwise). -/
def parse_json (cs : List Char) : Option JValue :=
  match parse_value (cs.length + 1) 0 cs with
  | some (v, rest) =>
    match skip_ws rest with
    | some [] => some v
    | _ => none
  | none => none

/-- Adjacent weak key ascent as a Boolean (equivalent to `WeaklyAscending`
by transitivity of `≤`). -/
def adj_weak_sorted : List (Utf8String × JValue) → Bool
  | [] => true
  | [_] => true
  | p :: q :: r => decide (p.1 ≤ q.1) && adj_weak_sorted (q :: r)

mutual
/-- The trees reachable through the typed factory API: numbers carry the
constructor-enforced payload ranges and tag normalization, strings carry the
honestly computed escape flag, Sorted objects carry storage sorted by the
constructor, and children are factory-built recursively. -/
def factory_built : JValue → Bool
  | JValue.jnull => true
  | JValue.jbool _ => true
  | JValue.jnum (number.signed_int v) => decide (-(2 ^ 63 : Int) ≤ v) && decide (v < 0)
  | JValue.jnum (number.unsigned_int u) => decide (u < 2 ^ 64)
  | JValue.jnum (number.double_val _ _) => true
  | JValue.jstr s esc => esc == has_escape_chars s
  | JValue.jarr elems => factory_built_list elems
  | JValue.jobj entries keep =>
    (keep || adj_weak_sorted entries) && factory_built_entries entries

/-- All array elements are factory-built. -/
def factory_built_list : List JValue → Bool
  | [] => true
  | x :: xs => factory_built x && factory_built_list xs

/-- All object entry values are factory-built. -/
def factory_built_entries : List (Utf8String × JValue) → Bool
  | [] => true
  | e :: es => factory_built e.2 && factory_built_entries es
end

mutual
/-- Every object node of the tree is in Sorted mode. -/
def all_sorted : JValue → Bool
  | JValue.jarr elems => all_sorted_list elems
  | JValue.jobj entries keep => !keep && all_sorted_entries entries
  | _ => true

/-- All array elements have only Sorted objects. -/
def all_sorted_list : List JValue → Bool
  | [] => true
  | x :: xs => all_sorted x && all_sorted_list xs

/-- All entry values have only Sorted objects. -/
def all_sorted_entries : List (Utf8String × JValue) → Bool
  | [] => true
  | e :: es => all_sorted e.2 && all_sorted_entries es
end

mutual
/-- Combined array/object nesting depth of a tree (scalars are depth 0). -/
def depth_of : JValue → Nat
  | JValue.jarr elems => 1 + depth_list elems
  | JValue.jobj entries _ => 1 + depth_entries entries
  | _ => 0

/-- Maximal depth over the elements. -/
def depth_list : List JValue → Nat
  | [] => 0
  | x :: xs => max (depth_of x) (depth_list xs)

/-- Maximal depth over the entry values. -/
def depth_entries : List (Utf8String × JValue) → Nat
  | [] => 0
  | e :: es => max (depth_of e.2) (depth_entries es)
end

mutual
/-- Recursion weight of a tree: an upper bound on the parser fuel needed. -/
def weight : JValue → Nat
  | JValue.jarr elems => 1 + weight_list elems
  | JValue.jobj entries _ => 1 + weight_entries entries
  | _ => 1

/-- Weight of an element list. -/
def weight_list : List JValue → Nat
  | [] => 1
  | x :: xs => weight x + weight_list xs

/-- Weight of an entry list. -/
def weight_entries : List (Utf8String × JValue) → Nat
  | [] => 1
  | e :: es => weight e.2 + weight_entries es
end

theorem weight_pos (v : JValue) : 1 ≤ weight v := by
  cases v <;> simp [weight]

theorem isDigit_range (c : Char) (h : c.isDigit = true) :
    48 ≤ c.toNat ∧ c.toNat ≤ 57 := by
  simp [Char.isDigit, Char.le_def] at h
  exact ⟨h.1, h.2⟩

theorem toNat_eq_of_eq {c d : Char} (h : c = d) : c.toNat = d.toNat := congrArg Char.toNat h

/-- A decimal digit head is transparent to whitespace skipping and distinct
from every dispatch character of the parser. -/
theorem digit_head_facts (c : Char) (h : c.isDigit = true) :
    is_ws_char c = false ∧ ¬ c = '/' ∧ ¬ c = ']' ∧ ¬ c = 'n' ∧ ¬ c = 't' ∧
      ¬ c = 'f' ∧ ¬ c = '"' ∧ ¬ c = '[' ∧ ¬ c = '{' ∧ ¬ c = '-' := by
  obtain ⟨h1, h2⟩ := isDigit_range c h
  have key : ∀ d : Char, c.toNat ≠ d.toNat → ¬ c = d :=
    fun d hn hc => hn (congrArg Char.toNat hc)
  have hws : is_ws_char c = false := by
    simp only [is_ws_char, decide_eq_false_iff_not, not_or]
    exact ⟨key ' ' (by rw [show (' ').toNat = 32 from rfl]; omega),
      key '\t' (by rw [show ('\t').toNat = 9 from rfl]; omega),
      key '\n' (by rw [show ('\n').toNat = 10 from rfl]; omega),
      key '\r' (by rw [show ('\r').toNat = 13 from rfl]; omega)⟩
  exact ⟨hws,
    key '/' (by rw [show ('/').toNat = 47 from rfl]; omega),
    key ']' (by rw [show (']').toNat = 93 from rfl]; omega),
    key 'n' (by rw [show ('n').toNat = 110 from rfl]; omega),
    key 't' (by rw [show ('t').toNat = 116 from rfl]; omega),
    key 'f' (by rw [show ('f').toNat = 102 from rfl]; omega),
    key '"' (by rw [show ('"').toNat = 34 from rfl]; omega),
    key '[' (by rw [show ('[').toNat = 91 from rfl]; omega),
    key '{' (by rw [show ('{').toNat = 123 from rfl]; omega),
    key '-' (by rw [show ('-').toNat = 45 from rfl]; omega)⟩

/-- A rest-of-input the serializer can leave after a value: empty, or starting
with a structural delimiter (`,` `]` `}`). -/
def good_delim (rest : List Char) : Prop :=
  rest = [] ∨ ∃ c r2, rest = c :: r2 ∧ (c = ',' ∨ c = ']' ∨ c = '}')

theorem good_delim_nil : good_delim [] := Or.inl rfl

theorem good_delim_head (rest : List Char) (h : good_delim rest) :
    rest = [] ∨ ∃ c r2, rest = c :: r2 ∧ c.isDigit = false ∧ ¬ c = '.' ∧
      ¬ c = 'e' ∧ ¬ c = 'E' := by
  rcases h with h | ⟨c, r2, hr, hc⟩
  · exact Or.inl h
  · refine Or.inr ⟨c, r2, hr, ?_⟩
    rcases hc with hc | hc | hc <;> subst hc <;> exact ⟨by decide, by decide, by decide, by decide⟩

/-- The first character of any serialized value: a parser-dispatch character
or a digit; in all cases not whitespace, not a comment start, and not `]`. -/
theorem serialize_value_head (v : JValue) :
    ∃ c cs2, serialize_value v = c :: cs2 ∧ is_ws_char c = false ∧ ¬ c = '/' ∧
      ¬ c = ']' := by
  have digitCase : ∀ (n : Nat) (tail : List Char), ∃ c cs2,
      nat_to_chars n ++ tail = c :: cs2 ∧ is_ws_char c = false ∧ ¬ c = '/' ∧ ¬ c = ']' := by
    intro n tail
    obtain ⟨d, ds, hd⟩ := List.exists_cons_of_ne_nil (nat_to_chars_ne_nil n)
    have hdig : d.isDigit = true := nat_to_chars_all_digits n d (hd ▸ List.mem_cons_self d ds)
    obtain ⟨hw, hs, hb, _⟩ := digit_head_facts d hdig
    exact ⟨d, ds ++ tail, by rw [hd, List.cons_append], hw, hs, hb⟩
  cases v with
  | jnull => exact ⟨'n', _, rfl, by decide, by decide, by decide⟩
  | jbool b =>
    cases b
    · exact ⟨'f', _, rfl, by decide, by decide, by decide⟩
    · exact ⟨'t', _, rfl, by decide, by decide, by decide⟩
  | jnum n =>
    cases n with
    | signed_int v =>
      by_cases hv : v < 0
      · have heq : serialize_value (JValue.jnum (number.signed_int v)) =
            '-' :: nat_to_chars v.natAbs := by
          rw [serialize_value, serialize_number, int_to_chars, if_pos hv]
        exact ⟨'-', nat_to_chars v.natAbs, heq, by decide, by decide, by decide⟩
      · have heq : serialize_value (JValue.jnum (number.signed_int v)) =
            nat_to_chars v.toNat ++ [] := by
          rw [serialize_value, serialize_number, int_to_chars, if_neg hv, List.append_nil]
        rw [heq]
        exact digitCase v.toNat []
    | unsigned_int u =>
      have : serialize_value (JValue.jnum (number.unsigned_int u)) =
          nat_to_chars u ++ [] := by
        rw [serialize_value, serialize_number, List.append_nil]
      rw [this]
      exact digitCase u []
    | double_val m k =>
      rw [serialize_value, serialize_number, double_to_chars]
      by_cases hm : m < 0
      · exact ⟨'-',
          nat_to_chars (m.natAbs / 10 ^ k) ++
            '.' :: (if k = 0 then ['0'] else frac_chars (m.natAbs % 10 ^ k) k),
          by rw [if_pos hm]; simp, by decide, by decide, by decide⟩
      · rw [if_neg hm, List.nil_append]
        exact digitCase (m.natAbs / 10 ^ k) _
  | jstr s esc =>
    cases esc <;> exact ⟨'"', _, rfl, by decide, by decide, by decide⟩
  | jarr elems => exact ⟨'[', _, rfl, by decide, by decide, by decide⟩
  | jobj entries keep => exact ⟨'{', _, rfl, by decide, by decide, by decide⟩

/-- Whitespace skipping is the identity in front of a serialized value. -/
theorem skip_ws_serialize (v : JValue) (rest : List Char) :
    skip_ws (serialize_value v ++ rest) = some (serialize_value v ++ rest) := by
  obtain ⟨c, cs2, hser, hw, hs, _⟩ := serialize_value_head v
  rw [hser, List.cons_append]
  exact skip_ws_not_ws c (cs2 ++ rest) hw hs

/-- Splitting a rendered integer out of the input at a non-digit boundary. -/
theorem span_nat_chars (n : Nat) (tail : List Char)
    (htail : tail = [] ∨ ∃ c r2, tail = c :: r2 ∧ c.isDigit = false) :
    (nat_to_chars n ++ tail).takeWhile Char.isDigit = nat_to_chars n ∧
      (nat_to_chars n ++ tail).dropWhile Char.isDigit = tail :=
  span_digits (nat_to_chars n) tail (nat_to_chars_all_digits n) htail

theorem good_delim_digit_boundary (rest : List Char) (h : good_delim rest) :
    rest = [] ∨ ∃ c r2, rest = c :: r2 ∧ c.isDigit = false := by
  rcases good_delim_head rest h with h2 | ⟨c, r2, hr, hd, _⟩
  · exact Or.inl h2
  · exact Or.inr ⟨c, r2, hr, hd⟩

/-- Lexing the decimal rendering of a `uint64` payload at a delimiter
boundary. -/
theorem lex_number_unsigned (n : Nat) (rest : List Char)
    (hn : n < 2 ^ 64) (hrest : good_delim rest) :
    lex_number (nat_to_chars n ++ rest) = some (number.unsigned_int n, rest) := by
  obtain ⟨d, ds, hd⟩ := List.exists_cons_of_ne_nil (nat_to_chars_ne_nil n)
  have hdig : d.isDigit = true := nat_to_chars_all_digits n d (hd ▸ List.mem_cons_self d ds)
  obtain ⟨_, _, _, _, _, _, _, _, _, hminus⟩ := digit_head_facts d hdig
  obtain ⟨htake, hdrop⟩ := span_nat_chars n rest (good_delim_digit_boundary rest hrest)
  have hcons : nat_to_chars n ++ rest = d :: (ds ++ rest) := by rw [hd, List.cons_append]
  rw [hcons, lex_number, if_neg hminus, ← hcons, lex_number_body, htake, hdrop]
  rw [if_neg (by simp [nat_to_chars_ne_nil n, hd])]
  have hval : digits_to_nat (nat_to_chars n) = n := digits_to_nat_nat_to_chars n
  rcases good_delim_head rest hrest with hnil | ⟨c, r2, hr, _, hdot, he, hE⟩
  · subst hnil
    rw [hval, lex_integral, if_neg (by simp), if_pos hn]
  · subst hr
    simp only []
    rw [if_neg hdot, if_neg (by simp [he, hE]), hval]
    rw [lex_integral, if_neg (by simp), if_pos hn]

/-- Lexing the decimal rendering of a negative `int64` payload. -/
theorem lex_number_signed (mag : Nat) (rest : List Char)
    (hmag : mag ≤ 2 ^ 63) (hrest : good_delim rest) :
    lex_number ('-' :: (nat_to_chars mag ++ rest)) =
      some (number.signed_int (-(mag : Int)), rest) := by
  obtain ⟨htake, hdrop⟩ := span_nat_chars mag rest (good_delim_digit_boundary rest hrest)
  rw [lex_number, if_pos rfl, lex_number_body, htake, hdrop]
  rw [if_neg (by simp [nat_to_chars_ne_nil mag])]
  have hval : digits_to_nat (nat_to_chars mag) = mag := digits_to_nat_nat_to_chars mag
  rcases good_delim_head rest hrest with hnil | ⟨c, r2, hr, _, hdot, he, hE⟩
  · subst hnil
    rw [hval, lex_integral, if_pos (by simp), if_pos hmag]
  · subst hr
    simp only []
    rw [if_neg hdot, if_neg (by simp [he, hE]), hval]
    rw [lex_integral, if_pos (by simp), if_pos hmag]

theorem frac_chars_facts (F k : Nat) (hF : F < 10 ^ k) (hk : 1 ≤ k) :
    (∀ c ∈ frac_chars F k, c.isDigit = true) ∧
    (frac_chars F k).length = k ∧
    digits_to_nat (frac_chars F k) = F ∧
    frac_chars F k ≠ [] := by
  have hlen : (nat_to_chars F).length ≤ k := nat_to_chars_length_le k F hF hk
  refine ⟨?_, ?_, ?_, ?_⟩
  · intro c hc
    rw [frac_chars, List.mem_append] at hc
    rcases hc with h | h
    · rw [List.eq_of_mem_replicate h]
      decide
    · exact nat_to_chars_all_digits F c h
  · rw [frac_chars, List.length_append, List.length_replicate]
    omega
  · rw [frac_chars, digits_to_nat_replicate_zero]
    exact digits_to_nat_nat_to_chars F
  · rw [frac_chars]
    intro h
    exact nat_to_chars_ne_nil F (List.append_eq_nil.mp h).2

/-- Lexing the body of a fractional rendering `I . fd` at a delimiter
boundary. -/
theorem lex_number_body_fraction (neg : Bool) (I : Nat) (fd rest : List Char)
    (hfd_dig : ∀ c ∈ fd, c.isDigit = true) (hfd_ne : fd ≠ [])
    (hrest : good_delim rest) :
    lex_number_body neg (nat_to_chars I ++ '.' :: (fd ++ rest)) =
      some (number.double_val
        (if neg then -((I * 10 ^ fd.length + digits_to_nat fd : Nat) : Int)
          else ((I * 10 ^ fd.length + digits_to_nat fd : Nat) : Int))
        fd.length, rest) := by
  obtain ⟨ht1, hd1⟩ := span_digits (nat_to_chars I) ('.' :: (fd ++ rest))
    (nat_to_chars_all_digits I) (Or.inr ⟨'.', fd ++ rest, rfl, by decide⟩)
  obtain ⟨ht2, hd2⟩ := span_digits fd rest hfd_dig (good_delim_digit_boundary rest hrest)
  rw [lex_number_body, ht1, hd1]
  rw [if_neg (by simp [nat_to_chars_ne_nil I])]
  simp only []
  rw [if_pos trivial, ht2, hd2]
  rw [if_neg (by simp [hfd_ne])]
  rw [digits_to_nat_nat_to_chars I]
  rcases good_delim_head rest hrest with hnil | ⟨c, r2, hr, _, _, he, hE⟩
  · subst hnil
    rfl
  · subst hr
    rw [lex_after_fraction]
    rw [if_neg (by simp [he, hE])]

/-- Lexing the full rendering of a double payload at a delimiter boundary:
the reparse yields a Double whose stored value is the rendered one (bit-for-bit
in the exact-decimal model), with the `k = 0` rendering `I.0` coming back
as the same value scaled by ten. -/
theorem lex_number_double (m : Int) (k : Nat) (rest : List Char) (hrest : good_delim rest) :
    lex_number (double_to_chars m k ++ rest) =
      some (number.double_val (if k = 0 then m * 10 else m) (if k = 0 then 1 else k), rest) := by
  have hsplit : m.natAbs = m.natAbs / 10 ^ k * 10 ^ k + m.natAbs % 10 ^ k :=
    (Nat.div_add_mod' _ _).symm
  have hbody : ∀ neg : Bool,
      lex_number_body neg
        (nat_to_chars (m.natAbs / 10 ^ k) ++
          '.' :: ((if k = 0 then ['0'] else frac_chars (m.natAbs % 10 ^ k) k) ++ rest)) =
      some (number.double_val
        (if neg then -((if k = 0 then m.natAbs * 10 else m.natAbs : Nat) : Int)
          else ((if k = 0 then m.natAbs * 10 else m.natAbs : Nat) : Int))
        (if k = 0 then 1 else k), rest) := by
    intro neg
    by_cases hk : k = 0
    · subst hk
      rw [if_pos rfl, if_pos rfl, if_pos rfl, pow_zero, Nat.div_one]
      have h := lex_number_body_fraction neg m.natAbs ['0'] rest
        (by intro c hc; rw [List.mem_singleton] at hc; subst hc; decide) (by simp) hrest
      have e1 : digits_to_nat ['0'] = 0 := by decide
      simp only [e1, List.length_singleton, pow_one, Nat.add_zero] at h
      exact h
    · have hk1 : 1 ≤ k := by omega
      have hF : m.natAbs % 10 ^ k < 10 ^ k := Nat.mod_lt _ (by positivity)
      obtain ⟨hdig, hlen, hval, hne⟩ := frac_chars_facts (m.natAbs % 10 ^ k) k hF hk1
      rw [if_neg hk, if_neg hk, if_neg hk]
      have h := lex_number_body_fraction neg (m.natAbs / 10 ^ k)
        (frac_chars (m.natAbs % 10 ^ k) k) rest hdig hne hrest
      rw [hlen, hval, ← hsplit] at h
      exact h
  by_cases hm : m < 0
  · have habs : ((m.natAbs : Nat) : Int) = -m := Int.ofNat_natAbs_of_nonpos (by omega)
    have hshape : double_to_chars m k ++ rest =
        '-' :: (nat_to_chars (m.natAbs / 10 ^ k) ++
          '.' :: ((if k = 0 then ['0'] else frac_chars (m.natAbs % 10 ^ k) k) ++ rest)) := by
      rw [double_to_chars, if_pos hm]
      simp
    rw [hshape, lex_number, if_pos rfl, hbody true]
    by_cases hk : k = 0
    · simp [hk, abs_of_neg hm]
      try ring
    · simp [hk, abs_of_neg hm]
      try ring
  · have habs : ((m.natAbs : Nat) : Int) = m := Int.natAbs_of_nonneg (by omega)
    have hshape : double_to_chars m k ++ rest =
        nat_to_chars (m.natAbs / 10 ^ k) ++
          '.' :: ((if k = 0 then ['0'] else frac_chars (m.natAbs % 10 ^ k) k) ++ rest) := by
      rw [double_to_chars, if_neg hm]
      simp
    obtain ⟨d, ds, hd⟩ := List.exists_cons_of_ne_nil (nat_to_chars_ne_nil (m.natAbs / 10 ^ k))
    have hdig : d.isDigit = true :=
      nat_to_chars_all_digits _ d (hd ▸ List.mem_cons_self d ds)
    obtain ⟨_, _, _, _, _, _, _, _, _, hminus⟩ := digit_head_facts d hdig
    have hcons : double_to_chars m k ++ rest = d ::
        (ds ++ '.' :: ((if k = 0 then ['0'] else frac_chars (m.natAbs % 10 ^ k) k) ++ rest)) := by
      rw [hshape, hd, List.cons_append]
    rw [hcons, lex_number, if_neg hminus, ← List.cons_append, ← hd, ← hshape, hshape,
      hbody false]
    by_cases hk : k = 0
    · simp [hk, abs_of_nonneg (not_lt.mp hm)]
      try ring
    · simp [hk, abs_of_nonneg (not_lt.mp hm)]
      try ring

theorem parse_hex_digit_hex_char : ∀ d, d < 16 → parse_hex_digit (hex_char d) = some d := by
  decide

theorem needs_escape_false_elim (c : Char) (h : needs_escape c = false) :
    ¬ c = '"' ∧ ¬ c = '\\' ∧ ¬ c.toNat < 32 := by
  simp only [needs_escape, Bool.or_eq_false_iff, beq_eq_false_iff_ne, ne_eq,
    decide_eq_false_iff_not] at h
  exact ⟨h.1.1, h.1.2, h.2⟩

/-- A string with nothing to escape lexes verbatim up to the closing quote. -/
theorem lex_string_verbatim (s : List Char) :
    ∀ rest : List Char, (∀ c ∈ s, needs_escape c = false) →
      lex_string (s ++ '"' :: rest) = some (s, false, rest) := by
  induction s with
  | nil =>
    intro rest _
    rw [List.nil_append, lex_string.eq_def]
    simp only []
    rw [if_pos trivial]
  | cons c s2 ih =>
    intro rest hs
    obtain ⟨hq, hb, hctl⟩ := needs_escape_false_elim c (hs c (List.mem_cons_self c s2))
    rw [List.cons_append, lex_string.eq_def]
    simp only []
    rw [if_neg hq, if_neg hb, if_neg hctl,
      ih rest (fun d hd => hs d (List.mem_cons_of_mem c hd))]

/-- Lexer step for a two-character simple escape: the lexer consumes
the backslash and the escape letter, unescapes it, and recurses. -/
theorem lex_string_escape_step (e c2 : Char) (T : List Char)
    (hu : ¬ e = 'u') (he : unescape_char e = some c2) :
    lex_string ('\\' :: e :: T) =
      match lex_string T with
      | some (s, _, r3) => some (c2 :: s, true, r3)
      | none => none := by
  rw [lex_string.eq_def]
  simp only []
  rw [if_neg (by decide), if_pos trivial, if_neg hu, he]

/-- Lexer step for a `\u00XY` escape produced for a control character. -/
theorem lex_string_unicode_step (d1 d2 : Nat) (T : List Char) (h1 : d1 < 16) (h2 : d2 < 16) :
    lex_string ('\\' :: 'u' :: '0' :: '0' :: hex_char d1 :: hex_char d2 :: T) =
      match lex_string T with
      | some (s, _, r4) => some (Char.ofNat (((0 * 16 + 0) * 16 + d1) * 16 + d2) :: s, true, r4)
      | none => none := by
  rw [lex_string.eq_def]
  simp only []
  rw [if_neg (by decide), if_pos trivial, if_pos trivial]
  rw [show parse_hex_digit '0' = some 0 from rfl,
    parse_hex_digit_hex_char d1 h1, parse_hex_digit_hex_char d2 h2]

/-- Escaping then lexing returns the original string and reports whether any
escape sequence was seen, i.e. exactly the `has_escape_chars` flag. -/
theorem lex_string_escaped (s : List Char) :
    ∀ rest : List Char,
      lex_string (escape_string s ++ '"' :: rest) = some (s, has_escape_chars s, rest) := by
  induction s with
  | nil =>
    intro rest
    rw [show escape_string [] = [] from rfl, List.nil_append, lex_string.eq_def]
    simp only []
    rw [if_pos trivial]
    rfl
  | cons c s2 ih =>
    intro rest
    have hcons : escape_string (c :: s2) = escape_char c ++ escape_string s2 := rfl
    rw [hcons, List.append_assoc]
    by_cases hq : c = '"'
    · subst hq
      rw [show escape_char '"' = ['\\', '"'] from rfl,
        show (['\\', '"'] : List Char) ++ (escape_string s2 ++ '"' :: rest) =
          '\\' :: '"' :: (escape_string s2 ++ '"' :: rest) from rfl,
        lex_string_escape_step '"' '"' _ (by decide) rfl, ih rest]
      simp [has_escape_chars, needs_escape]
    · by_cases hb : c = '\\'
      · subst hb
        rw [show escape_char '\\' = ['\\', '\\'] from rfl,
          show (['\\', '\\'] : List Char) ++ (escape_string s2 ++ '"' :: rest) =
            '\\' :: '\\' :: (escape_string s2 ++ '"' :: rest) from rfl,
          lex_string_escape_step '\\' '\\' _ (by decide) rfl, ih rest]
        simp [has_escape_chars, needs_escape]
      · by_cases h8 : c.toNat = 8
        · have hc : c = Char.ofNat 8 := by rw [← h8, Char.ofNat_toNat]
          subst hc
          rw [show escape_char (Char.ofNat 8) = ['\\', 'b'] from rfl,
            show (['\\', 'b'] : List Char) ++ (escape_string s2 ++ '"' :: rest) =
              '\\' :: 'b' :: (escape_string s2 ++ '"' :: rest) from rfl,
            lex_string_escape_step 'b' (Char.ofNat 8) _ (by decide) rfl, ih rest]
          simp [has_escape_chars, needs_escape]
        · by_cases h12 : c.toNat = 12
          · have hc : c = Char.ofNat 12 := by rw [← h12, Char.ofNat_toNat]
            subst hc
            rw [show escape_char (Char.ofNat 12) = ['\\', 'f'] from rfl,
              show (['\\', 'f'] : List Char) ++ (escape_string s2 ++ '"' :: rest) =
                '\\' :: 'f' :: (escape_string s2 ++ '"' :: rest) from rfl,
              lex_string_escape_step 'f' (Char.ofNat 12) _ (by decide) rfl, ih rest]
            simp [has_escape_chars, needs_escape]
          · by_cases hn : c = '\n'
            · subst hn
              rw [show escape_char '\n' = ['\\', 'n'] from rfl,
                show (['\\', 'n'] : List Char) ++ (escape_string s2 ++ '"' :: rest) =
                  '\\' :: 'n' :: (escape_string s2 ++ '"' :: rest) from rfl,
                lex_string_escape_step 'n' '\n' _ (by decide) rfl, ih rest]
              simp [has_escape_chars, needs_escape]
            · by_cases hr : c = '\r'
              · subst hr
                rw [show escape_char '\r' = ['\\', 'r'] from rfl,
                  show (['\\', 'r'] : List Char) ++ (escape_string s2 ++ '"' :: rest) =
                    '\\' :: 'r' :: (escape_string s2 ++ '"' :: rest) from rfl,
                  lex_string_escape_step 'r' '\r' _ (by decide) rfl, ih rest]
                simp [has_escape_chars, needs_escape]
              · by_cases ht : c = '\t'
                · subst ht
                  rw [show escape_char '\t' = ['\\', 't'] from rfl,
                    show (['\\', 't'] : List Char) ++ (escape_string s2 ++ '"' :: rest) =
                      '\\' :: 't' :: (escape_string s2 ++ '"' :: rest) from rfl,
                    lex_string_escape_step 't' '\t' _ (by decide) rfl, ih rest]
                  simp [has_escape_chars, needs_escape]
                · by_cases hctl : c.toNat < 32
                  · have hesc : escape_char c =
                        ['\\', 'u', '0', '0', hex_char (c.toNat / 16), hex_char (c.toNat % 16)] := by
                      rw [escape_char, if_neg (by simpa using hq), if_neg (by simpa using hb),
                        if_neg (by simpa using h8), if_neg (by simpa using h12),
                        if_neg (by simpa using hn), if_neg (by simpa using hr),
                        if_neg (by simpa using ht), if_pos hctl]
                    rw [hesc,
                      show (['\\', 'u', '0', '0', hex_char (c.toNat / 16),
                          hex_char (c.toNat % 16)] : List Char) ++ (escape_string s2 ++ '"' :: rest) =
                        '\\' :: 'u' :: '0' :: '0' :: hex_char (c.toNat / 16) ::
                          hex_char (c.toNat % 16) :: (escape_string s2 ++ '"' :: rest) from rfl,
                      lex_string_unicode_step (c.toNat / 16) (c.toNat % 16) _
                        (by omega) (by omega), ih rest]
                    simp only []
                    have hval : ((0 * 16 + 0) * 16 + c.toNat / 16) * 16 + c.toNat % 16 =
                        c.toNat := by omega
                    rw [hval, Char.ofNat_toNat]
                    have hflag : has_escape_chars (c :: s2) = true := by
                      simp [has_escape_chars, needs_escape, hctl]
                    rw [hflag]
                  · have hne : needs_escape c = false := by
                      simp [needs_escape, hq, hb, hctl]
                    have hesc : escape_char c = [c] := by
                      rw [escape_char, if_neg (by simpa using hq), if_neg (by simpa using hb),
                        if_neg (by simpa using h8), if_neg (by simpa using h12),
                        if_neg (by simpa using hn), if_neg (by simpa using hr),
                        if_neg (by simpa using ht), if_neg hctl]
                    rw [hesc, show ([c] : List Char) ++ (escape_string s2 ++ '"' :: rest) =
                      c :: (escape_string s2 ++ '"' :: rest) from rfl]
                    rw [lex_string.eq_def]
                    simp only []
                    rw [if_neg hq, if_neg hb, if_neg hctl, ih rest]
                    have hflag : has_escape_chars (c :: s2) = has_escape_chars s2 := by
                      simp [has_escape_chars, hne]
                    rw [hflag]

/-- Serializing then lexing any string value built by the honest factory:
the content returns exactly and the parsed escape flag is again the honest
flag. -/
theorem lex_string_serialize (s : List Char) (rest : List Char) :
    lex_string ((if has_escape_chars s then escape_string s else s) ++ '"' :: rest) =
      some (s, has_escape_chars s, rest) := by
  by_cases h : has_escape_chars s = true
  · rw [if_pos h, lex_string_escaped s rest]
  · have h2 : has_escape_chars s = false := by simpa using h
    have hall : ∀ c ∈ s, needs_escape c = false := by
      rw [has_escape_chars, List.any_eq_false] at h2
      exact fun c hc => by simpa using h2 c hc
    rw [if_neg h, h2, lex_string_verbatim s rest hall]

theorem parse_value_null (fuel depth : Nat) (r2 : List Char) :
    parse_value (fuel + 1) depth ('n' :: 'u' :: 'l' :: 'l' :: r2) = some (JValue.jnull, r2) := by
  rw [parse_value.eq_def]
  simp only []
  rw [skip_ws_not_ws 'n' _ (by decide) (by decide)]
  simp only []
  rw [if_pos trivial, if_pos (by exact ⟨trivial, trivial, trivial⟩)]

theorem parse_value_true (fuel depth : Nat) (r2 : List Char) :
    parse_value (fuel + 1) depth ('t' :: 'r' :: 'u' :: 'e' :: r2) =
      some (JValue.jbool true, r2) := by
  rw [parse_value.eq_def]
  simp only []
  rw [skip_ws_not_ws 't' _ (by decide) (by decide)]
  simp only []
  rw [if_neg (by decide), if_pos trivial, if_pos (by exact ⟨trivial, trivial, trivial⟩)]

theorem parse_value_false (fuel depth : Nat) (r2 : List Char) :
    parse_value (fuel + 1) depth ('f' :: 'a' :: 'l' :: 's' :: 'e' :: r2) =
      some (JValue.jbool false, r2) := by
  rw [parse_value.eq_def]
  simp only []
  rw [skip_ws_not_ws 'f' _ (by decide) (by decide)]
  simp only []
  rw [if_neg (by decide), if_neg (by decide), if_pos trivial,
    if_pos (by exact ⟨trivial, trivial, trivial, trivial⟩)]

theorem parse_value_string (fuel depth : Nat) (T s : List Char) (esc : Bool) (r2 : List Char)
    (h : lex_string T = some (s, esc, r2)) :
    parse_value (fuel + 1) depth ('"' :: T) = some (JValue.jstr s esc, r2) := by
  rw [parse_value.eq_def]
  simp only []
  rw [skip_ws_not_ws '"' _ (by decide) (by decide)]
  simp only []
  rw [if_neg (by decide), if_neg (by decide), if_neg (by decide), if_pos trivial, h]

theorem parse_value_number (fuel depth : Nat) (c : Char) (T : List Char)
    (n : number) (r2 : List Char)
    (hws : is_ws_char c = false) (hsl : ¬ c = '/') (hn : ¬ c = 'n') (ht : ¬ c = 't')
    (hf : ¬ c = 'f') (hq : ¬ c = '"') (hlb : ¬ c = '[') (hob : ¬ c = '{')
    (h : lex_number (c :: T) = some (n, r2)) :
    parse_value (fuel + 1) depth (c :: T) = some (JValue.jnum n, r2) := by
  rw [parse_value.eq_def]
  simp only []
  rw [skip_ws_not_ws c _ hws hsl]
  simp only []
  rw [if_neg hn, if_neg ht, if_neg hf, if_neg hq, if_neg hlb, if_neg hob, h]

theorem parse_value_array_empty (fuel depth : Nat) (r : List Char)
    (hdepth : depth < max_nesting_depth) :
    parse_value (fuel + 1) depth ('[' :: ']' :: r) = some (JValue.jarr [], r) := by
  rw [parse_value.eq_def]
  simp only []
  rw [skip_ws_not_ws '[' _ (by decide) (by decide)]
  simp only []
  rw [if_neg (by decide), if_neg (by decide), if_neg (by decide), if_neg (by decide),
    if_pos trivial, if_neg (not_le.mpr hdepth),
    skip_ws_not_ws ']' _ (by decide) (by decide)]
  simp only []
  rw [if_pos trivial]

theorem parse_value_array_cons (fuel depth : Nat) (c : Char) (T : List Char)
    (elems : List JValue) (r3 : List Char) (hdepth : depth < max_nesting_depth)
    (hws : is_ws_char c = false) (hsl : ¬ c = '/') (hrb : ¬ c = ']')
    (h : parse_elements fuel (depth + 1) (c :: T) = some (elems, r3)) :
    parse_value (fuel + 1) depth ('[' :: c :: T) = some (JValue.jarr elems, r3) := by
  rw [parse_value.eq_def]
  simp only []
  rw [skip_ws_not_ws '[' _ (by decide) (by decide)]
  simp only []
  rw [if_neg (by decide), if_neg (by decide), if_neg (by decide), if_neg (by decide),
    if_pos trivial, if_neg (not_le.mpr hdepth), skip_ws_not_ws c _ hws hsl]
  simp only []
  rw [if_neg hrb, h]

theorem parse_value_object_empty (fuel depth : Nat) (r : List Char)
    (hdepth : depth < max_nesting_depth) :
    parse_value (fuel + 1) depth ('{' :: '}' :: r) = some (JValue.jobj [] false, r) := by
  rw [parse_value.eq_def]
  simp only []
  rw [skip_ws_not_ws '{' _ (by decide) (by decide)]
  simp only []
  rw [if_neg (by decide), if_neg (by decide), if_neg (by decide), if_neg (by decide),
    if_neg (by decide), if_pos trivial, if_neg (not_le.mpr hdepth),
    skip_ws_not_ws '}' _ (by decide) (by decide)]
  simp only []
  rw [if_pos trivial]

theorem parse_value_object_cons (fuel depth : Nat) (T : List Char)
    (entries : List (Utf8String × JValue)) (r3 : List Char)
    (hdepth : depth < max_nesting_depth)
    (h : parse_members fuel (depth + 1) ('"' :: T) = some (entries, r3)) :
    parse_value (fuel + 1) depth ('{' :: '"' :: T) =
      some (JValue.jobj (object.sort_pairs entries) false, r3) := by
  rw [parse_value.eq_def]
  simp only []
  rw [skip_ws_not_ws '{' _ (by decide) (by decide)]
  simp only []
  rw [if_neg (by decide), if_neg (by decide), if_neg (by decide), if_neg (by decide),
    if_neg (by decide), if_pos trivial, if_neg (not_le.mpr hdepth),
    skip_ws_not_ws '"' _ (by decide) (by decide)]
  simp only []
  rw [if_neg (by decide), h]
theorem weight_list_pos (l : List JValue) : 1 ≤ weight_list l := by
  cases l with
  | nil => simp [weight_list]
  | cons x xs =>
    rw [weight_list]
    have := weight_pos x
    omega

theorem weight_entries_pos (l : List (Utf8String × JValue)) : 1 ≤ weight_entries l := by
  cases l with
  | nil => simp [weight_entries]
  | cons e es =>
    rw [weight_entries]
    have := weight_pos e.2
    omega

/-- The Boolean adjacent ascent test captures exactly the pairwise one. -/
theorem adj_weak_sorted_iff (l : List (Utf8String × JValue)) :
    adj_weak_sorted l = true ↔ WeaklyAscending l := by
  induction l with
  | nil => simp [adj_weak_sorted, WeaklyAscending]
  | cons p r ih =>
    cases r with
    | nil => simp [adj_weak_sorted, WeaklyAscending]
    | cons q r2 =>
      rw [adj_weak_sorted, Bool.and_eq_true, decide_eq_true_iff, ih]
      constructor
      · rintro ⟨hpq, hw⟩
        refine List.Pairwise.cons ?_ hw
        intro x hx
        rcases List.mem_cons.mp hx with h | h
        · subst h
          exact hpq
        · exact le_trans hpq (List.rel_of_pairwise_cons hw h)
      · intro h
        exact ⟨List.rel_of_pairwise_cons h (List.mem_cons_self q r2),
          (List.pairwise_cons.mp h).2⟩

/-- Keys determine weak ascent: equal key sequences transfer the invariant. -/
theorem weaklyAscending_of_map_eq (l1 l2 : List (Utf8String × JValue))
    (hk : l1.map Prod.fst = l2.map Prod.fst) (h : WeaklyAscending l1) :
    WeaklyAscending l2 := by
  have h1 : (l1.map Prod.fst).Pairwise (fun a b => a ≤ b) := by
    rw [List.pairwise_map]
    exact h
  rw [hk, List.pairwise_map] at h1
  exact h1

/-- The constructor sort is the identity on already weakly sorted storage. -/
theorem sort_pairs_eq_self (l : List (Utf8String × JValue)) (h : WeaklyAscending l) :
    object.sort_pairs l = l := by
  induction l with
  | nil => rfl
  | cons p r ih =>
    have hr : WeaklyAscending r := (List.pairwise_cons.mp h).2
    rw [object.sort_pairs, ih hr]
    cases r with
    | nil => rfl
    | cons q r2 =>
      have hpq : p.1 ≤ q.1 :=
        (List.pairwise_cons.mp h).1 q (List.mem_cons_self q r2)
      have hcmp : object.compare_pairs q p = false := by
        simp [object.compare_pairs, not_lt.mpr hpq]
      rw [object.insert_sorted, if_neg (by simp [hcmp])]

/-- A rendered number starts with a minus sign or a decimal digit. -/
theorem serialize_number_head (n : number) :
    ∃ c T, serialize_number n = c :: T ∧ (c = '-' ∨ c.isDigit = true) := by
  cases n with
  | signed_int v =>
    rw [serialize_number, int_to_chars]
    by_cases hv : v < 0
    · rw [if_pos hv]
      exact ⟨'-', _, rfl, Or.inl rfl⟩
    · rw [if_neg hv]
      obtain ⟨d, ds, hd⟩ := List.exists_cons_of_ne_nil (nat_to_chars_ne_nil v.toNat)
      exact ⟨d, ds, hd, Or.inr (nat_to_chars_all_digits _ d (hd ▸ List.mem_cons_self d ds))⟩
  | unsigned_int u =>
    rw [serialize_number]
    obtain ⟨d, ds, hd⟩ := List.exists_cons_of_ne_nil (nat_to_chars_ne_nil u)
    exact ⟨d, ds, hd, Or.inr (nat_to_chars_all_digits _ d (hd ▸ List.mem_cons_self d ds))⟩
  | double_val m k =>
    rw [serialize_number, double_to_chars]
    by_cases hm : m < 0
    · rw [if_pos hm]
      exact ⟨'-', _, rfl, Or.inl rfl⟩
    · rw [if_neg hm, List.nil_append]
      obtain ⟨d, ds, hd⟩ := List.exists_cons_of_ne_nil (nat_to_chars_ne_nil (m.natAbs / 10 ^ k))
      exact ⟨d, ds ++ '.' :: (if k = 0 then ['0'] else frac_chars (m.natAbs % 10 ^ k) k),
        by rw [hd, List.cons_append],
        Or.inr (nat_to_chars_all_digits _ d (hd ▸ List.mem_cons_self d ds))⟩

/-- A number head character is transparent to whitespace skipping and missed
by every non-number dispatch arm of the parser. -/
theorem number_head_conds (c : Char) (h : c = '-' ∨ c.isDigit = true) :
    is_ws_char c = false ∧ ¬ c = '/' ∧ ¬ c = 'n' ∧ ¬ c = 't' ∧ ¬ c = 'f' ∧
      ¬ c = '"' ∧ ¬ c = '[' ∧ ¬ c = '{' ∧ ¬ c = ']' := by
  rcases h with h | h
  · subst h
    exact ⟨by decide, by decide, by decide, by decide, by decide, by decide,
      by decide, by decide, by decide⟩
  · obtain ⟨hws, hsl, hrb, hn, ht, hf, hq, hlb, hob, _⟩ := digit_head_facts c h
    exact ⟨hws, hsl, hn, ht, hf, hq, hlb, hob, hrb⟩
/-- A rendered element list (nonempty) starts like the value it opens with. -/
theorem serialize_elements_head (x : JValue) (xs : List JValue) :
    ∃ c T, serialize_elements (x :: xs) = c :: T ∧ is_ws_char c = false ∧
      ¬ c = '/' ∧ ¬ c = ']' := by
  obtain ⟨c, cs2, hser, hw, hs, hb⟩ := serialize_value_head x
  cases xs with
  | nil => exact ⟨c, cs2, by rw [serialize_elements, hser], hw, hs, hb⟩
  | cons y ys =>
    exact ⟨c, cs2 ++ ',' :: serialize_elements (y :: ys),
      by rw [serialize_elements, hser, List.cons_append], hw, hs, hb⟩

/-- A rendered member list (nonempty) starts with the key's opening quote. -/
theorem serialize_members_head (e : Utf8String × JValue) (es : List (Utf8String × JValue)) :
    ∃ T, serialize_members (e :: es) = '"' :: T := by
  cases es with
  | nil =>
    exact ⟨escape_string e.1 ++ ['"'] ++ ':' :: serialize_value e.2,
      by rw [serialize_members, format_string]; simp⟩
  | cons f fs =>
    exact ⟨escape_string e.1 ++ ['"'] ++ ':' :: serialize_value e.2 ++
        ',' :: serialize_members (f :: fs),
      by rw [serialize_members, format_string]; simp⟩

/-- A scalar's rendering is nonempty; composites carry their bracket. -/
theorem serialize_value_length_pos (v : JValue) : 1 ≤ (serialize_value v).length := by
  obtain ⟨c, cs2, hser, _, _, _⟩ := serialize_value_head v
  rw [hser]
  simp

/-- The recursion weight of a tree is bounded by the length of its rendering:
the serializer emits at least one character per unit of parser fuel. -/
theorem weight_le_serialize : ∀ fuel : Nat,
    (∀ v : JValue, weight v ≤ fuel → weight v ≤ (serialize_value v).length) ∧
    (∀ l : List JValue, weight_list l ≤ fuel →
      weight_list l ≤ (serialize_elements l).length + 1) ∧
    (∀ l : List (Utf8String × JValue), weight_entries l ≤ fuel →
      weight_entries l ≤ (serialize_members l).length + 1) := by
  intro fuel
  induction fuel with
  | zero =>
    refine ⟨fun v h => absurd h (by have := weight_pos v; omega),
      fun l h => absurd h (by have := weight_list_pos l; omega),
      fun l h => absurd h (by have := weight_entries_pos l; omega)⟩
  | succ fuel ih =>
    obtain ⟨ih1, ih2, ih3⟩ := ih
    refine ⟨?_, ?_, ?_⟩
    · intro v hv
      cases v with
      | jnull => simp [weight, serialize_value]
      | jbool b => cases b <;> simp [weight, serialize_value]
      | jnum n =>
        have := serialize_value_length_pos (JValue.jnum n)
        have hw : weight (JValue.jnum n) = 1 := rfl
        omega
      | jstr s esc =>
        have := serialize_value_length_pos (JValue.jstr s esc)
        have hw : weight (JValue.jstr s esc) = 1 := rfl
        omega
      | jarr elems =>
        rw [weight] at hv ⊢
        have h2 := ih2 elems (by have := weight_list_pos elems; omega)
        rw [serialize_value]
        simp only [List.length_cons, List.length_append, List.length_singleton]
        omega
      | jobj entries keep =>
        rw [weight] at hv ⊢
        have h3 := ih3 entries (by have := weight_entries_pos entries; omega)
        rw [serialize_value]
        simp only [List.length_cons, List.length_append, List.length_singleton]
        omega
    · intro l hl
      cases l with
      | nil => simp [weight_list, serialize_elements]
      | cons x xs =>
        rw [weight_list] at hl ⊢
        have hx := weight_pos x
        have hxs := weight_list_pos xs
        have h1 := ih1 x (by omega)
        cases xs with
        | nil =>
          rw [serialize_elements]
          rw [weight_list] at *
          omega
        | cons y ys =>
          have h2 := ih2 (y :: ys) (by omega)
          rw [serialize_elements]
          simp only [List.length_append, List.length_cons]
          omega
    · intro l hl
      cases l with
      | nil => simp [weight_entries, serialize_members]
      | cons e es =>
        rw [weight_entries] at hl ⊢
        have hx := weight_pos e.2
        have hes := weight_entries_pos es
        have h1 := ih1 e.2 (by omega)
        cases es with
        | nil =>
          rw [serialize_members]
          rw [weight_entries] at *
          simp only [List.length_append, List.length_cons]
          omega
        | cons f fs =>
          have h2 := ih3 (f :: fs) (by omega)
          rw [serialize_members]
          simp only [List.length_append, List.length_cons]
          omega
/-- The heart of the round trip: with enough fuel, parsing a serialized
factory-built all-Sorted tree within the depth budget consumes exactly the
rendering and yields a structurally equal value; similarly for the element
loop (up to and including the closing `]`) and the member loop (up to and
including the closing `}`, the members coming back with the original keys in
storage order). -/
theorem parse_serialize_round_trip : ∀ fuel : Nat,
    (∀ (v : JValue) (depth : Nat) (rest : List Char),
      factory_built v = true → all_sorted v = true →
      depth + depth_of v ≤ max_nesting_depth → weight v ≤ fuel → good_delim rest →
      ∃ w, parse_value fuel depth (serialize_value v ++ rest) = some (w, rest) ∧
        value_eq w v = true) ∧
    (∀ (elems : List JValue) (depth : Nat) (rest : List Char),
      elems ≠ [] → factory_built_list elems = true → all_sorted_list elems = true →
      depth + depth_list elems ≤ max_nesting_depth → weight_list elems ≤ fuel →
      ∃ ws, parse_elements fuel depth (serialize_elements elems ++ ']' :: rest) =
          some (ws, rest) ∧ ws.length = elems.length ∧ array_is_equal ws elems = true) ∧
    (∀ (entries : List (Utf8String × JValue)) (depth : Nat) (rest : List Char),
      entries ≠ [] → factory_built_entries entries = true →
      all_sorted_entries entries = true →
      depth + depth_entries entries ≤ max_nesting_depth → weight_entries entries ≤ fuel →
      ∃ es, parse_members fuel depth (serialize_members entries ++ '}' :: rest) =
          some (es, rest) ∧ es.map Prod.fst = entries.map Prod.fst ∧
          es.length = entries.length ∧ object_is_equal es entries = true) := by
  intro fuel
  induction fuel with
  | zero =>
    refine ⟨fun v _ _ _ _ _ h _ => absurd h (by have := weight_pos v; omega),
      fun l _ _ _ _ _ _ h => absurd h (by have := weight_list_pos l; omega),
      fun l _ _ _ _ _ _ h => absurd h (by have := weight_entries_pos l; omega)⟩
  | succ fuel ih =>
    obtain ⟨ih1, ih2, ih3⟩ := ih
    refine ⟨?_, ?_, ?_⟩
    · -- parse_value on a serialized value
      intro v depth rest h1 h2 h3 h4 h5
      cases v with
      | jnull =>
        refine ⟨JValue.jnull, ?_, rfl⟩
        rw [show serialize_value JValue.jnull ++ rest = 'n' :: 'u' :: 'l' :: 'l' :: rest
          from rfl]
        exact parse_value_null fuel depth rest
      | jbool b =>
        cases b
        · refine ⟨JValue.jbool false, ?_, rfl⟩
          rw [show serialize_value (JValue.jbool false) ++ rest =
            'f' :: 'a' :: 'l' :: 's' :: 'e' :: rest from rfl]
          exact parse_value_false fuel depth rest
        · refine ⟨JValue.jbool true, ?_, rfl⟩
          rw [show serialize_value (JValue.jbool true) ++ rest =
            't' :: 'r' :: 'u' :: 'e' :: rest from rfl]
          exact parse_value_true fuel depth rest
      | jnum n =>
        cases n with
        | signed_int val =>
          rw [factory_built] at h1
          simp only [Bool.and_eq_true, decide_eq_true_eq] at h1
          have hval : -((val.natAbs : Nat) : Int) = val := by omega
          have hlex := lex_number_signed val.natAbs rest (by omega) h5
          have hinput : serialize_value (JValue.jnum (number.signed_int val)) ++ rest =
              '-' :: (nat_to_chars val.natAbs ++ rest) := by
            rw [serialize_value, serialize_number, int_to_chars, if_pos h1.2,
              List.cons_append]
          refine ⟨JValue.jnum (number.signed_int val), ?_,
            by simp [value_eq, number.equals]⟩
          have hp := parse_value_number fuel depth '-' (nat_to_chars val.natAbs ++ rest)
            (number.signed_int (-((val.natAbs : Nat) : Int))) rest
            (by decide) (by decide) (by decide) (by decide) (by decide) (by decide)
            (by decide) (by decide) hlex
          rw [hval] at hp
          rw [hinput]
          exact hp
        | unsigned_int u =>
          rw [factory_built] at h1
          simp only [decide_eq_true_eq] at h1
          have hlex := lex_number_unsigned u rest h1 h5
          obtain ⟨d, ds, hd⟩ := List.exists_cons_of_ne_nil (nat_to_chars_ne_nil u)
          have hdig : d.isDigit = true :=
            nat_to_chars_all_digits u d (hd ▸ List.mem_cons_self d ds)
          obtain ⟨hws, hsl, _, hn, ht, hf, hq, hlb, hob, _⟩ := digit_head_facts d hdig
          have hinput : serialize_value (JValue.jnum (number.unsigned_int u)) ++ rest =
              d :: (ds ++ rest) := by
            rw [serialize_value, serialize_number, hd, List.cons_append]
          refine ⟨JValue.jnum (number.unsigned_int u), ?_,
            by simp [value_eq, number.equals]⟩
          rw [hinput]
          exact parse_value_number fuel depth d (ds ++ rest)
            (number.unsigned_int u) rest hws hsl hn ht hf hq hlb hob
            (by rw [← List.cons_append, ← hd]; exact hlex)
        | double_val m k =>
          have hlex := lex_number_double m k rest h5
          obtain ⟨c, T, hser, hcd⟩ := serialize_number_head (number.double_val m k)
          obtain ⟨hws, hsl, hn, ht, hf, hq, hlb, hob, _⟩ := number_head_conds c hcd
          have hinput : serialize_value (JValue.jnum (number.double_val m k)) ++ rest =
              c :: (T ++ rest) := by
            rw [serialize_value, hser, List.cons_append]
          have hveq : value_eq
              (JValue.jnum (number.double_val (if k = 0 then m * 10 else m)
                (if k = 0 then 1 else k)))
              (JValue.jnum (number.double_val m k)) = true := by
            by_cases hk : k = 0
            · subst hk
              simp [value_eq, number.equals]
            · simp [value_eq, number.equals, hk]
          refine ⟨JValue.jnum (number.double_val (if k = 0 then m * 10 else m)
            (if k = 0 then 1 else k)), ?_, hveq⟩
          rw [hinput]
          refine parse_value_number fuel depth c (T ++ rest) _ rest
            hws hsl hn ht hf hq hlb hob ?_
          rw [← List.cons_append, ← hser,
            show serialize_number (number.double_val m k) = double_to_chars m k from rfl]
          exact hlex
      | jstr s esc =>
        rw [factory_built] at h1
        have he : esc = has_escape_chars s := by simpa using h1
        subst he
        have hinput : serialize_value (JValue.jstr s (has_escape_chars s)) ++ rest =
            '"' :: ((if has_escape_chars s then escape_string s else s) ++ '"' :: rest) := by
          rw [serialize_value, string_serialize]
          by_cases h : has_escape_chars s <;> simp [h]
        refine ⟨JValue.jstr s (has_escape_chars s), ?_, by simp [value_eq]⟩
        rw [hinput]
        exact parse_value_string fuel depth _ s (has_escape_chars s) rest
          (lex_string_serialize s rest)
      | jarr elems =>
        rw [depth_of] at h3
        rw [weight] at h4
        cases elems with
        | nil =>
          refine ⟨JValue.jarr [], ?_, rfl⟩
          rw [show serialize_value (JValue.jarr []) ++ rest = '[' :: ']' :: rest from rfl]
          exact parse_value_array_empty fuel depth rest (by omega)
        | cons x xs =>
          rw [factory_built] at h1
          rw [all_sorted] at h2
          obtain ⟨c, T, hse, hws, hsl, hrb⟩ := serialize_elements_head x xs
          have hmax1 := Nat.le_max_left (depth_of x) (depth_list xs)
          have hdl : depth_list (x :: xs) = max (depth_of x) (depth_list xs) := rfl
          obtain ⟨ws, hpe, hlen, haeq⟩ := ih2 (x :: xs) (depth + 1) rest
            (List.cons_ne_nil x xs) h1 h2 (by omega)
            (by have := weight_list_pos (x :: xs); omega)
          have hinput : serialize_value (JValue.jarr (x :: xs)) ++ rest =
              '[' :: c :: (T ++ ']' :: rest) := by
            rw [serialize_value, hse]
            simp
          refine ⟨JValue.jarr ws, ?_, by simp [value_eq, hlen, haeq]⟩
          rw [hinput]
          refine parse_value_array_cons fuel depth c (T ++ ']' :: rest) ws rest
            (by omega) hws hsl hrb ?_
          rw [← List.cons_append, ← hse]
          exact hpe
      | jobj entries keep =>
        rw [all_sorted] at h2
        simp only [Bool.and_eq_true, Bool.not_eq_eq_eq_not, Bool.not_true] at h2
        obtain ⟨hk, hase⟩ := h2
        subst hk
        rw [factory_built] at h1
        simp only [Bool.false_or, Bool.and_eq_true] at h1
        obtain ⟨hadj, hfbe⟩ := h1
        rw [depth_of] at h3
        rw [weight] at h4
        cases entries with
        | nil =>
          refine ⟨JValue.jobj [] false, ?_, rfl⟩
          rw [show serialize_value (JValue.jobj [] false) ++ rest =
            '{' :: '}' :: rest from rfl]
          exact parse_value_object_empty fuel depth rest (by omega)
        | cons e es =>
          obtain ⟨T, hse⟩ := serialize_members_head e es
          obtain ⟨es', hpm, hkeys, hlen, hoeq⟩ := ih3 (e :: es) (depth + 1) rest
            (List.cons_ne_nil e es) hfbe hase (by omega)
            (by have := weight_entries_pos (e :: es); omega)
          have hsorted : object.sort_pairs es' = es' := by
            refine sort_pairs_eq_self es' ?_
            exact weaklyAscending_of_map_eq (e :: es) es' hkeys.symm
              ((adj_weak_sorted_iff (e :: es)).mp hadj)
          have hinput : serialize_value (JValue.jobj (e :: es) false) ++ rest =
              '{' :: '"' :: (T ++ '}' :: rest) := by
            rw [serialize_value, hse]
            simp
          refine ⟨JValue.jobj es' false, ?_, by simp [value_eq, hlen, hoeq]⟩
          rw [hinput, ← hsorted]
          refine parse_value_object_cons fuel depth (T ++ '}' :: rest) es' rest
            (by omega) ?_
          rw [← List.cons_append, ← hse]
          exact hpm
    · -- parse_elements on a serialized element list
      intro elems depth rest hne hfb hsort hdepth hweight
      cases elems with
      | nil => exact absurd rfl hne
      | cons x xs =>
        rw [factory_built_list, Bool.and_eq_true] at hfb
        rw [all_sorted_list, Bool.and_eq_true] at hsort
        have hmax1 := Nat.le_max_left (depth_of x) (depth_list xs)
        have hmax2 := Nat.le_max_right (depth_of x) (depth_list xs)
        have hdl : depth_list (x :: xs) = max (depth_of x) (depth_list xs) := rfl
        rw [weight_list] at hweight
        have hwx := weight_pos x
        have hwxs := weight_list_pos xs
        cases xs with
        | nil =>
          obtain ⟨w, hpv, hveq⟩ := ih1 x depth (']' :: rest) hfb.1 hsort.1
            (by omega) (by omega) (Or.inr ⟨']', rest, rfl, Or.inr (Or.inl rfl)⟩)
          have hinput : serialize_elements [x] ++ ']' :: rest =
              serialize_value x ++ ']' :: rest := by
            rw [serialize_elements]
          refine ⟨[w], ?_, by simp, by simp [array_is_equal, hveq]⟩
          rw [hinput, parse_elements.eq_def]
          simp only []
          rw [hpv]
          simp only []
          rw [skip_ws_not_ws ']' _ (by decide) (by decide)]
          simp only []
          rw [if_neg (by decide), if_pos trivial]
        | cons y ys =>
          obtain ⟨w, hpv, hveq⟩ := ih1 x depth
            (',' :: (serialize_elements (y :: ys) ++ ']' :: rest)) hfb.1 hsort.1
            (by omega) (by omega) (Or.inr ⟨',', _, rfl, Or.inl rfl⟩)
          obtain ⟨ws, hpe, hlen, haeq⟩ := ih2 (y :: ys) depth rest
            (List.cons_ne_nil y ys) hfb.2 hsort.2 (by omega) (by omega)
          have hinput : serialize_elements (x :: y :: ys) ++ ']' :: rest =
              serialize_value x ++ ',' :: (serialize_elements (y :: ys) ++ ']' :: rest) := by
            rw [serialize_elements]
            simp
          refine ⟨w :: ws, ?_, by simp [hlen], by simp [array_is_equal, hveq, haeq]⟩
          rw [hinput, parse_elements.eq_def]
          simp only []
          rw [hpv]
          simp only []
          rw [skip_ws_not_ws ',' _ (by decide) (by decide)]
          simp only []
          rw [if_pos trivial, hpe]
    · -- parse_members on a serialized member list
      intro entries depth rest hne hfb hsort hdepth hweight
      cases entries with
      | nil => exact absurd rfl hne
      | cons e es =>
        rw [factory_built_entries, Bool.and_eq_true] at hfb
        rw [all_sorted_entries, Bool.and_eq_true] at hsort
        have hmax1 := Nat.le_max_left (depth_of e.2) (depth_entries es)
        have hmax2 := Nat.le_max_right (depth_of e.2) (depth_entries es)
        have hde : depth_entries (e :: es) = max (depth_of e.2) (depth_entries es) := rfl
        rw [weight_entries] at hweight
        have hwe := weight_pos e.2
        have hwes := weight_entries_pos es
        cases es with
        | nil =>
          obtain ⟨w, hpv, hveq⟩ := ih1 e.2 depth ('}' :: rest) hfb.1 hsort.1
            (by omega) (by omega) (Or.inr ⟨'}', rest, rfl, Or.inr (Or.inr rfl)⟩)
          have hinput : serialize_members [e] ++ '}' :: rest =
              '"' :: (escape_string e.1 ++ '"' :: ':' ::
                (serialize_value e.2 ++ '}' :: rest)) := by
            rw [serialize_members, format_string]
            simp
          refine ⟨[(e.1, w)], ?_, by simp, by simp,
            by simp [object_is_equal, hveq]⟩
          rw [hinput, parse_members.eq_def]
          simp only []
          rw [skip_ws_not_ws '"' _ (by decide) (by decide)]
          simp only []
          rw [if_pos trivial, lex_string_escaped e.1 _]
          simp only []
          rw [skip_ws_not_ws ':' _ (by decide) (by decide)]
          simp only []
          rw [if_pos trivial, hpv]
          simp only []
          rw [skip_ws_not_ws '}' _ (by decide) (by decide)]
          simp only []
          rw [if_neg (by decide), if_pos trivial]
        | cons f fs =>
          obtain ⟨w, hpv, hveq⟩ := ih1 e.2 depth
            (',' :: (serialize_members (f :: fs) ++ '}' :: rest)) hfb.1 hsort.1
            (by omega) (by omega) (Or.inr ⟨',', _, rfl, Or.inl rfl⟩)
          obtain ⟨es', hpm, hkeys, hlen, hoeq⟩ := ih3 (f :: fs) depth rest
            (List.cons_ne_nil f fs) hfb.2 hsort.2 (by omega) (by omega)
          have hinput : serialize_members (e :: f :: fs) ++ '}' :: rest =
              '"' :: (escape_string e.1 ++ '"' :: ':' ::
                (serialize_value e.2 ++ ',' ::
                  (serialize_members (f :: fs) ++ '}' :: rest))) := by
            rw [serialize_members, format_string]
            simp
          refine ⟨(e.1, w) :: es', ?_, by simp [hkeys], by simp [hlen],
            by simp [object_is_equal, hveq, hoeq]⟩
          rw [hinput, parse_members.eq_def]
          simp only []
          rw [skip_ws_not_ws '"' _ (by decide) (by decide)]
          simp only []
          rw [if_pos trivial, lex_string_escaped e.1 _]
          simp only []
          rw [skip_ws_not_ws ':' _ (by decide) (by decide)]
          simp only []
          rw [if_pos trivial, hpv]
          simp only []
          rw [skip_ws_not_ws ',' _ (by decide) (by decide)]
          simp only []
          rw [if_pos trivial, hpm]
/-- C1 as literally stated is false for Ordered-mode objects: an Ordered
object whose keys are not ascending serializes in storage order, but the
parser rebuilds every object through the Sorted-mode constructor, which
re-sorts the members — the reparse of this two-member Ordered object is not
structurally equal to it. -/
theorem c1_round_trip_counterexample :
    factory_built
      (JValue.jobj [(['b'], JValue.jnull), (['a'], JValue.jnull)] true) = true ∧
    (parse_json (serialize_value
        (JValue.jobj [(['b'], JValue.jnull), (['a'], JValue.jnull)] true))).map
      (fun w => value_eq w
        (JValue.jobj [(['b'], JValue.jnull), (['a'], JValue.jnull)] true)) =
      some false :=
  ⟨rfl, rfl⟩

/-- C1 (amended) — Round trip: for every Value tree built via the typed
factory API whose objects are all in the default Sorted storage mode and
whose nesting stays within the parser's depth bound, parsing the serialized
text succeeds and yields a Value structurally equal (`value::operator==`) to
the original — same storage mode and storage order included, since both
sides are Sorted. Ordered-mode trees are excluded: the parser always
rebuilds objects in Sorted mode (see the counterexample). -/
theorem c1_round_trip (v : JValue) (h1 : factory_built v = true)
    (h2 : all_sorted v = true) (h3 : depth_of v ≤ max_nesting_depth) :
    ∃ w, parse_json (serialize_value v) = some w ∧ value_eq w v = true := by
  obtain ⟨hP1, _, _⟩ := parse_serialize_round_trip ((serialize_value v).length + 1)
  have hw : weight v ≤ (serialize_value v).length :=
    (weight_le_serialize (weight v)).1 v le_rfl
  obtain ⟨w, hp, hveq⟩ := hP1 v 0 [] h1 h2 (by omega) (by omega) good_delim_nil
  rw [List.append_nil] at hp
  refine ⟨w, ?_, hveq⟩
  rw [parse_json, hp]
  simp [skip_ws_nil]

/-- Witness for C1 on a concrete Sorted two-member object tree. -/
theorem c1_round_trip_witness :
    ∃ w, parse_json (serialize_value (JValue.jobj [(['a'], JValue.jnull),
        (['b'], JValue.jbool true)] false)) = some w ∧
      value_eq w (JValue.jobj [(['a'], JValue.jnull),
        (['b'], JValue.jbool true)] false) = true :=
  c1_round_trip _ rfl rfl (by decide)
end CppRest
